import Mathlib

/-!
Verification of the keyboard-lighting engine (`utils.rs`, `dbus.rs`, `main.rs`,
`consts.rs`): a shallow embedding of the frame compositing and animation engine
together with proofs about it.

Machine arithmetic conventions used throughout this development:

* `u8`, `u32`, `usize`, `u128` values are modelled as `ℕ` (resp. `Fin 256` for
  the channels of a `Color`, mirroring the exact range of `u8`).
* `f64` values are modelled as exact rationals together with an explicit
  IEEE-754 binary64 rounding function `floatRound` (round to nearest, ties to
  even) applied after every arithmetic operation, mirroring the hardware.
  All numbers reached by this program stay far inside the normal range of
  binary64 (no overflow, no subnormals, no NaN except where noted), where
  `floatRound` is the exact rounding function of the format.
-/

/-! ## A model of IEEE-754 binary64 rounding (round to nearest, ties to even) -/

/-- Exponent of a positive rational: the unique `e` with `2^e ≤ q < 2^(e+1)`. -/
def qexp (q : ℚ) : ℤ := Int.log 2 q

/-- Round a rational to the nearest integer, breaking a tie towards the even
neighbour. -/
def roundInt (m : ℚ) : ℤ :=
  if m - (⌊m⌋ : ℚ) < 1 / 2 then ⌊m⌋
  else if (1 / 2 : ℚ) < m - (⌊m⌋ : ℚ) then ⌊m⌋ + 1
  else if ⌊m⌋ % 2 = 0 then ⌊m⌋ else ⌊m⌋ + 1

/-- Round a positive rational to the nearest binary64 value (ties to even):
the significand `m = q·2^(52-e) ∈ [2^52, 2^53)` is rounded to the nearest
integer (to the even one on a tie) and scaled back. This is the exact
rounding function of binary64 on the normal range, which covers every value
computed by this program. -/
def roundPos (q : ℚ) : ℚ :=
  (roundInt (q * 2 ^ (52 - qexp q)) : ℚ) * 2 ^ (qexp q - 52)

/-- Rounding of an arbitrary (finite, normal-range) rational to binary64. -/
def floatRound (q : ℚ) : ℚ :=
  if q = 0 then 0
  else if q < 0 then -(roundPos (-q))
  else roundPos q

/-- Rust `f64` addition: exact sum, then binary64 rounding. -/
def fadd (x y : ℚ) : ℚ := floatRound (x + y)

/-- Rust `f64` subtraction: exact difference, then binary64 rounding. -/
def fsub (x y : ℚ) : ℚ := floatRound (x - y)

/-- Rust `f64` multiplication: exact product, then binary64 rounding. -/
def fmul (x y : ℚ) : ℚ := floatRound (x * y)

/-- Rust `f64` division: exact quotient, then binary64 rounding. -/
def fdiv (x y : ℚ) : ℚ := floatRound (x / y)

/-- Rust `f64::clamp(self, lo, hi)`: pure comparisons, no rounding. -/
def rustClamp (x lo hi : ℚ) : ℚ := if x < lo then lo else if hi < x then hi else x

/-- Rust `expr as u8` on an `f64`: truncate toward zero, saturating to
`[0, 255]`. -/
def f64AsU8 (q : ℚ) : Fin 256 := ⟨min ⌊q⌋.toNat 255, by omega⟩

/-- Rust `expr as usize` on an `f64`: truncate toward zero, saturating to
`[0, 2^64-1]`. -/
def f64AsUsize (q : ℚ) : ℕ := min ⌊q⌋.toNat (2 ^ 64 - 1)

/-- Rust `expr.ceil() as u32` on an `f64` (`ceil` is exact on the values this
program reaches, the cast truncates and saturates to `[0, 2^32-1]`). -/
def f64CeilAsU32 (q : ℚ) : ℕ := min ⌈q⌉.toNat (2 ^ 32 - 1)

/-! ## Colors and geometry (`utils.rs`) -/

/-- RGB color with three `u8` channels (`openrgb::data::Color`). -/
structure Color where
  r : Fin 256
  g : Fin 256
  b : Fin 256
deriving DecidableEq, Repr

instance : Inhabited Color := ⟨⟨0, 0, 0⟩⟩

/-- Geometry constants of the fixed device (utils.rs lines 66-80). -/
def ROW_LENGTH : ℕ := 22

def ROW_COUNT : ℕ := 6

def TOTAL_LEDS : ℕ := ROW_LENGTH * ROW_COUNT

def COL_OFFSET_START : ℕ := 1

def COL_OFFSET_END : ℕ := 4

def TOP_ROW_LENGTH : ℕ := ROW_LENGTH - COL_OFFSET_END - COL_OFFSET_START

def FRAME_DURATION_MS : ℕ := 75

/-- Minimum progress delta causing a recomposite (utils.rs line 132),
a `f64` constant. -/
def PROGRESS_STEP : ℚ := 0

def BLACK : Color := ⟨0, 0, 0⟩

def WHITE : Color := ⟨255, 255, 255⟩

def GRAY : Color := ⟨80, 65, 80⟩

def DIM_GRAY : Color := ⟨40, 35, 40⟩

def RED : Color := ⟨255, 0, 0⟩

def GREEN : Color := ⟨0, 255, 0⟩

def BLUE : Color := ⟨0, 0, 255⟩

def PURPLE : Color := ⟨255, 0, 255⟩

/-- Frames are sequences of colors, one per LED (`pub type Frame = Vec<Color>`). -/
abbrev Frame : Type := List Color

/-- Frame of `TOTAL_LEDS` black LEDs (utils.rs line 120). -/
def BLACK_SUBSTRATE : Frame := List.replicate TOTAL_LEDS BLACK

/-- Grid coordinate of an LED. -/
structure Point where
  x : ℕ
  y : ℕ
deriving DecidableEq, Repr

/-- Index-to-coordinates mapping `num2xy` (utils.rs lines 135-143).
`let nc = n.clamp(0, TOTAL_LEDS)` is `min n TOTAL_LEDS` on `usize` (the lower
bound 0 is vacuous). The `usize` expression `ROW_COUNT - y - 1` underflows
when `y + 1 > ROW_COUNT`; the underflow (a panic in debug builds, a wrap to
`2^64 - y - 1 + ROW_COUNT` in release builds — either way not a clamped
in-range point) is modelled as `none`. -/
def num2xy (n : ℕ) : Option Point :=
  let nc := min n TOTAL_LEDS
  let y := nc / ROW_LENGTH
  if y + 1 ≤ ROW_COUNT then some ⟨nc - y * ROW_LENGTH, ROW_COUNT - y - 1⟩ else none

/-- CSS color as produced by the external `css_color_parser` crate. -/
structure CssColor where
  r : Fin 256
  g : Fin 256
  b : Fin 256
  a : ℚ
deriving DecidableEq, Repr

/-- Constant `TRANSPARENT_BLACK` (utils.rs lines 83-88). -/
def TRANSPARENT_BLACK : CssColor := ⟨0, 0, 0, 1⟩

/-- Color-string parsing `parse_hex` (utils.rs lines 153-160). The
string-to-`CssColor` parse performed by the external crate is abstracted by
its outcome: `parsed = none` models an unparseable string, `some c` a string
parsing to `c`. The source applies `unwrap_or(TRANSPARENT_BLACK)` to that
outcome and keeps the three channels. -/
def parse_hex (parsed : Option CssColor) : Color :=
  let css_col := parsed.getD TRANSPARENT_BLACK
  ⟨css_col.r, css_col.g, css_col.b⟩

/-- Color interpolation `lerp_color` (utils.rs lines 162-169): each channel is
`from.r as f64 * (1.0 - progress_01) + to.r as f64 * progress_01` evaluated in
`f64` and cast back with `as u8`. -/
def lerp_color (cfrom cto : Color) (progress : ℚ) : Color :=
  let progress_01 := rustClamp progress 0 1
  { r := f64AsU8 (fadd (fmul (cfrom.r.val : ℚ) (fsub 1 progress_01))
      (fmul (cto.r.val : ℚ) progress_01)),
    g := f64AsU8 (fadd (fmul (cfrom.g.val : ℚ) (fsub 1 progress_01))
      (fmul (cto.g.val : ℚ) progress_01)),
    b := f64AsU8 (fadd (fmul (cfrom.b.val : ℚ) (fsub 1 progress_01))
      (fmul (cto.b.val : ℚ) progress_01)) }

/-! ## Notifications (`utils.rs` data model, `dbus.rs` handlers) -/

/-- Per-application notification settings (utils.rs lines 24-29). The
`Arc<NotificationSettings>` sharing is by-value here: settings are immutable
after config load. -/
structure NotificationSettings where
  color : Color
  important : Bool
  flash_on_notify : Bool
  flash_on_auto_close : Color
deriving DecidableEq, Repr

/-- A tracked notification (utils.rs lines 31-36): `id = 0` until the delivery
reply assigns one; `timestamp` is the creation time in milliseconds (`u128`). -/
structure Notification where
  id : ℕ
  sender : String
  settings : NotificationSettings
  timestamp : ℕ
deriving DecidableEq, Repr

/-- Combination of `iter().position(p)` and `Vec::remove(ind)` used by the
`NotificationClosed` handler (dbus.rs lines 221-238): locate the first element
satisfying `p` and return it with the remaining list. -/
def findRemove (p : α → Bool) : List α → Option (α × List α)
  | [] => none
  | x :: xs =>
    if p x then some (x, xs)
    else (findRemove p xs).map (fun r => (r.1, x :: r.2))

/-- Observable outcome of one `NotificationClosed` event: the two lists after
the handler, the color handed to `flash_color` (if any), and whether the
handler issued a direct `composite` call. -/
structure ClosedResult where
  pending : List Notification
  displayed : List Notification
  flashed : Option Color
  recomposited : Bool
deriving DecidableEq, Repr

/-- Handler of `NotificationClosed(id, reason)` (dbus.rs lines 230-280).
First the pending list is searched by id; a hit is removed, and only
`reason == 1` (expired) goes on to flash `flash_on_auto_close` (when not
black) and, for `important` settings, to append the notification to the
displayed list and recomposite. Otherwise the displayed list is searched;
a hit there is removed with a recomposite. -/
def handleNotificationClosed (id reason : ℕ) (pending displayed : List Notification) :
    ClosedResult :=
  match findRemove (fun notif => notif.id == id) pending with
  | some (notif, pending') =>
    if reason ≠ 1 then
      { pending := pending', displayed := displayed, flashed := none, recomposited := false }
    else
      let flashed := if notif.settings.flash_on_auto_close ≠ BLACK then
        some notif.settings.flash_on_auto_close else none
      if notif.settings.important then
        { pending := pending', displayed := displayed ++ [notif], flashed := flashed,
          recomposited := true }
      else
        { pending := pending', displayed := displayed, flashed := flashed,
          recomposited := false }
  | none =>
    match findRemove (fun notif => notif.id == id) displayed with
    | some (_, displayed') =>
      { pending := pending, displayed := displayed', flashed := none, recomposited := true }
    | none =>
      { pending := pending, displayed := displayed, flashed := none, recomposited := false }

/-- Fixed delivery timeout (dbus.rs line 60). -/
def notification_delivery_timeout : ℕ := 2000

/-- Model of `pending_notif_q.iter_mut().rev().find(|notif| notif.sender ==
destination)` followed by `notif.id = id` (dbus.rs lines 292-294): the last
entry whose sender matches gets the delivered id; the updated entry is
returned alongside. -/
def assignIdRev (destination : String) (id : ℕ) :
    List Notification → List Notification × Option Notification
  | [] => ([], none)
  | n :: rest =>
    match assignIdRev destination id rest with
    | (rest', some m) => (n :: rest', some m)
    | (rest', none) =>
      if n.sender == destination then
        ({ n with id := id } :: rest', some { n with id := id })
      else (n :: rest', none)

/-- Handler of a delivery reply (dbus.rs lines 286-315): assign the id to the
most recent matching pending entry, flash its color when `flash_on_notify`,
then run the "cleanup broken notifications" retain with
`deadline_time = get_timestamp() + notification_delivery_timeout` and
`retain(|notif| notif.timestamp <= deadline_time)` — exactly as written in the
source. Returns the pending list after the handler and the flashed color. -/
def handleDelivery (id : ℕ) (destination : String) (now : ℕ)
    (pending : List Notification) : List Notification × Option Color :=
  let found := assignIdRev destination id pending
  let flashed : Option Color :=
    match found.2 with
    | some notif => if notif.settings.flash_on_notify then some notif.settings.color else none
    | none => none
  let deadline_time := now + notification_delivery_timeout
  (found.1.filter (fun notif => notif.timestamp ≤ deadline_time), flashed)

/-- Raw JSON fields of one `notification_map` entry as read by dbus.rs lines
42-53. The outer `Option` is the `as_str()` / `as_bool()` result (`none` =
field missing or mistyped, making the subsequent `.unwrap()` panic at
startup); for color fields the inner `Option` is the CSS parse outcome fed to
`parse_hex` (`none` = string present but unparseable). -/
structure RawNotificationEntry where
  color : Option (Option CssColor)
  flash_on_auto_close : Option (Option CssColor)
  flash_on_notify : Option Bool
  important : Option Bool

/-- Config loading of one notification entry (dbus.rs lines 44-52): a missing
field is a startup panic (`none`), while an unparseable color string proceeds
through `parse_hex`'s `unwrap_or(TRANSPARENT_BLACK)` fallback. -/
def loadNotificationEntry (e : RawNotificationEntry) : Option NotificationSettings := do
  let c ← e.color
  let fac ← e.flash_on_auto_close
  let fon ← e.flash_on_notify
  let imp ← e.important
  some { color := parse_hex c, important := imp, flash_on_notify := fon,
         flash_on_auto_close := parse_hex fac }

/-! ## Progress-update handler (`dbus.rs` lines 113-163) -/

/-- Payload of one `com.canonical.Unity.LauncherEntry Update` signal after
deserialization: the `progress` property is an `f64`, `progress-visible` a
bool defaulting to `true`, `count` an `i32` defaulting to `0`. -/
structure ProgressEvent where
  source : String
  progress : ℚ
  progress_visible : Bool
  count : ℤ

/-- Visible effect of one progress update beyond the ledger write. -/
inductive ProgressAction where
  | flash (c : Color)
  | recomposite
  | skip
deriving DecidableEq, Repr

/-- Insert-or-replace for the association-list model of the concurrent
progress map. -/
def setKey (key : String) (v : Color × ℚ) :
    List (String × Color × ℚ) → List (String × Color × ℚ)
  | [] => [(key, v)]
  | (k, w) :: rest => if k == key then (key, v) :: rest else (k, w) :: setKey key v rest

/-- Delta between the stored ratio for the event's source (defaulting to the
freshly inserted `(WHITE, 0.0)`) and the incoming value:
`(tuple.1 - progress).abs()` in `f64` (dbus.rs line 133). -/
def progress_delta (pm : List (String × Color × ℚ)) (ev : ProgressEvent) : ℚ :=
  |fsub (((pm.lookup ev.source).getD (WHITE, 0)).2) ev.progress|

/-- Handler of one progress update (dbus.rs lines 121-161): ensure a ledger
entry exists (`entry(..).or_insert((WHITE, 0.0))`), overwrite its ratio when
the delta exceeds `PROGRESS_STEP`, then either flash (on `progress == 0.0`,
color chosen from `progress_visible` and `count`) or recomposite (on a
sufficient delta), or do nothing. -/
def handleProgressUpdate (pm : List (String × Color × ℚ)) (ev : ProgressEvent) :
    List (String × Color × ℚ) × ProgressAction :=
  let stored : Color × ℚ := (pm.lookup ev.source).getD (WHITE, 0)
  let pm' := if PROGRESS_STEP < progress_delta pm ev then
      setKey ev.source (stored.1, ev.progress) pm
    else
      setKey ev.source stored pm
  let action : ProgressAction :=
    if ev.progress = 0 then
      ProgressAction.flash
        (if ev.progress_visible then (if 1 < ev.count then GREEN else RED)
         else if 1 < ev.count then BLUE else PURPLE)
    else if PROGRESS_STEP < progress_delta pm ev then
      ProgressAction.recomposite
    else ProgressAction.skip
  (pm', action)

/-! ## Animator (`fade_into_frame`, utils.rs lines 171-189, and
`enq_keyboard_frame`, main.rs lines 307-315) -/

/-- Engine frame state: the "last frame" snapshot and the FIFO frame queue
(oldest first). -/
structure EngineState where
  lastFrame : Frame
  frameQ : List Frame
deriving DecidableEq, Repr

/-- Enqueueing a frame (main.rs lines 307-315): the "last frame" state is set
to the frame, which is then pushed onto the unbounded FIFO queue. -/
def enq_keyboard_frame (st : EngineState) (frame : Frame) : EngineState :=
  { lastFrame := frame, frameQ := st.frameQ ++ [frame] }

/-- Animator `fade_into_frame` (utils.rs lines 171-189):
`iterations = fade_time_ms / FRAME_DURATION_MS` (integer division); the
starting frame is a snapshot of "last frame" taken once; for
`i in 1..=iterations` the frame obtained by lerping every position of the
snapshot towards `frame_to` at `i as f64 / iterations as f64` is enqueued
(`zip` pairs positions up to the shorter of the two frames). -/
def fade_into_frame (st : EngineState) (frame_to : Frame) (fade_time_ms : ℕ) : EngineState :=
  let iterations := fade_time_ms / FRAME_DURATION_MS
  let frame_from := st.lastFrame
  (List.range iterations).foldl
    (fun s i =>
      enq_keyboard_frame s
        ((frame_from.zip frame_to).map
          (fun p => lerp_color p.1 p.2 (fdiv (((i + 1 : ℕ)) : ℚ) ((iterations : ℕ) : ℚ)))))
    st

/-! ## Compositor (`composite`, utils.rs lines 229-314) -/

/-- Floating-point color accumulator (utils.rs lines 40-59): three `f64`
channels summed with `+=` without 8-bit clipping. -/
structure WideColor where
  r : ℚ
  g : ℚ
  b : ℚ
deriving DecidableEq, Repr

/-- The `AddAssign<Color>` impl for `WideColor` (utils.rs lines 47-53): each
channel gains `rhs.<chan> as f64`, an `f64` addition. -/
def addAssignColor (w : WideColor) (c : Color) : WideColor :=
  ⟨fadd w.r ((c.r.val : ℕ) : ℚ), fadd w.g ((c.g.val : ℕ) : ℚ), fadd w.b ((c.b.val : ℕ) : ℚ)⟩

/-- Loop state of the progress loop in `composite`: the `top_bar` accumulator
(`ROW_LENGTH` wide colors), the bar count `num_bars` and the running maximum
`colored_leds`. -/
structure BarState where
  topBar : List WideColor
  numBars : ℕ
  coloredLeds : ℕ

/-- In-place update of one list element; `none` models the Rust index-out-of-
bounds panic. -/
def updateAt (l : List α) (i : ℕ) (f : α → α) : Option (List α) :=
  match l[i]? with
  | some a => some (l.set i (f a))
  | none => none

/-- Guarded write `l[i] = a`; `none` models the Rust index-out-of-bounds
panic. -/
def setChecked (l : List α) (i : ℕ) (a : α) : Option (List α) :=
  if i < l.length then some (l.set i a) else none

/-- The `scaled_progress` local of the progress loop:
`progress * TOP_ROW_LENGTH as f64` (utils.rs line 267). -/
def entryScaled (e : Color × ℚ) : ℚ := fmul e.2 ((TOP_ROW_LENGTH : ℕ) : ℚ)

/-- The `filled_leds` local of the progress loop: `scaled_progress as usize`
(utils.rs line 269). -/
def entryFilled (e : Color × ℚ) : ℕ := f64AsUsize (entryScaled e)

/-- The `scaled_progress.ceil() as u32` value folded into `colored_leds`
(utils.rs line 271). -/
def entryCeil (e : Color × ℚ) : ℕ := f64CeilAsU32 (entryScaled e)

/-- One iteration of the progress loop of `composite` (utils.rs lines
255-283). Entries with non-positive progress are skipped. Otherwise the ratio
is scaled by `TOP_ROW_LENGTH` (`entryScaled`), truncated to `filled_leds`
(`entryFilled`), the running `colored_leds` maximum takes the ceiling
(`entryCeil`), the first `filled_leds` buckets of `top_bar` gain the entry's
color and bucket `filled_leds` gains the lerp of the base frame color at that
index towards the entry color by the fractional part (`last_led_progress`).
`none` models the panics: `top_bar[...]` out of bounds (ratio too large), or
`new_frame[filled_leds]` out of bounds (frame shorter than the bar). -/
def processEntry (new_frame : Frame) (st : BarState) (entry : Color × ℚ) :
    Option BarState :=
  if entry.2 ≤ 0 then some st
  else
    let filled_leds := entryFilled entry
    let colored_leds := max st.coloredLeds (entryCeil entry)
    let last_led_progress := fsub (entryScaled entry) ((filled_leds : ℕ) : ℚ)
    match new_frame[filled_leds]? with
    | some base_c =>
      (updateAt
          (st.topBar.mapIdx (fun i w => if i < filled_leds then addAssignColor w entry.1 else w))
          filled_leds
          (fun w => addAssignColor w (lerp_color base_c entry.1 last_led_progress))).map
        (fun bar => { topBar := bar, numBars := st.numBars + 1, coloredLeds := colored_leds })
    | none => none

/-- Flash branch of `composite` (utils.rs lines 288-293): positions
`start .. start+n-1` of the frame are overwritten with one color. -/
def setRun (f : Frame) (start n : ℕ) (c : Color) : Option Frame :=
  (List.range n).foldlM (fun fr i => setChecked fr (i + start) c) f

/-- Normalisation loop of `composite` (utils.rs lines 296-302): positions
`COL_OFFSET_START .. COL_OFFSET_START+colored_leds-1` receive the `top_bar`
buckets divided by `num_bars as f64` in `f64`, truncated per channel with
`as u8`. -/
def averageRun (f : Frame) (st : BarState) : Option Frame :=
  (List.range st.coloredLeds).foldlM
    (fun fr i =>
      match st.topBar[i]? with
      | some w =>
        setChecked fr (i + COL_OFFSET_START)
          ⟨f64AsU8 (fdiv w.r ((st.numBars : ℕ) : ℚ)),
           f64AsU8 (fdiv w.g ((st.numBars : ℕ) : ℚ)),
           f64AsU8 (fdiv w.b ((st.numBars : ℕ) : ℚ))⟩
      | none => none)
    f

/-- Notification-marker loop of `composite` (utils.rs lines 304-308): one LED
per displayed notification, starting at `COL_OFFSET_START + 2`, incrementing
the index, with no bound check and no truncation. -/
def writeNotifs (f : Frame) (start : ℕ) : List Notification → Option Frame
  | [] => some f
  | n :: rest =>
    match setChecked f start n.settings.color with
    | some f' => writeNotifs f' (start + 1) rest
    | none => none

/-- Compositor `composite` (utils.rs lines 229-314). Inputs are the iterated
`(color, progress)` values of the concurrent progress map (in iteration
order), the displayed notification list, the flash-overlay atomic's value and
the base frame returned by `get_base()`. The progress loop accumulates into
`top_bar`; a non-black flash then paints the whole indicator run with the
flash color, otherwise the averaged bar is written followed by the
notification markers. The returned frame is the one handed to
`fade_into_frame`; `none` models a panic. -/
def composite (entries : List (Color × ℚ)) (notifications : List Notification)
    (flash : Color) (base : Frame) : Option Frame := do
  let st ← entries.foldlM (processEntry base)
    { topBar := List.replicate ROW_LENGTH ⟨0, 0, 0⟩, numBars := 0, coloredLeds := 0 }
  if flash ≠ BLACK then
    setRun base COL_OFFSET_START TOP_ROW_LENGTH flash
  else do
    let nf ← averageRun base st
    writeNotifs nf (COL_OFFSET_START + 2) notifications

/-- State-passing form of `composite`: the Rust function borrows the progress
map immutably (`&ProgressMap`) and only iterates it, so the ledger component
of the state comes back unchanged next to the produced frame. -/
def composite_with_ledger (entries : List (Color × ℚ)) (notifications : List Notification)
    (flash : Color) (base : Frame) : Option (Frame × List (Color × ℚ)) :=
  (composite entries notifications flash base).map (fun f => (f, entries))

/-! ### Closed forms used to characterise the progress loop of `composite` -/

/-- The entries the progress loop does not skip (`progress > 0`). -/
def goodEntries (l : List (Color × ℚ)) : List (Color × ℚ) :=
  l.filter (fun e => decide (0 < e.2))

/-- The color one entry adds to `top_bar[i]`: its own color on fully-filled
buckets, the boundary lerp on bucket `entryFilled`, black (nothing) elsewhere
or when skipped. -/
def entryContrib (base : Frame) (e : Color × ℚ) (i : ℕ) : Color :=
  if e.2 ≤ 0 then BLACK
  else if i < entryFilled e then e.1
  else if i = entryFilled e then
    lerp_color (base.getD (entryFilled e) BLACK) e.1
      (fsub (entryScaled e) ((entryFilled e : ℕ) : ℚ))
  else BLACK

/-- Red-channel total accumulated in `top_bar[i]` by a list of entries. -/
def sumR (base : Frame) (l : List (Color × ℚ)) (i : ℕ) : ℕ :=
  (l.map (fun e => (entryContrib base e i).r.val)).sum

/-- Green-channel total accumulated in `top_bar[i]` by a list of entries. -/
def sumG (base : Frame) (l : List (Color × ℚ)) (i : ℕ) : ℕ :=
  (l.map (fun e => (entryContrib base e i).g.val)).sum

/-- Blue-channel total accumulated in `top_bar[i]` by a list of entries. -/
def sumB (base : Frame) (l : List (Color × ℚ)) (i : ℕ) : ℕ :=
  (l.map (fun e => (entryContrib base e i).b.val)).sum

/-- The running `colored_leds` maximum after a list of entries. -/
def coloredOf (l : List (Color × ℚ)) : ℕ :=
  l.foldl (fun acc e => if e.2 ≤ 0 then acc else max acc (entryCeil e)) 0

/-- Closed form of the progress-loop state after processing a list of
entries: every `top_bar` bucket holds the exact channel totals (all the `f64`
additions are exact on these small integers), `num_bars` counts the
non-skipped entries, `colored_leds` is the running maximum of ceilings. -/
def barStateOf (base : Frame) (l : List (Color × ℚ)) : BarState :=
  { topBar := (List.range ROW_LENGTH).map (fun i =>
      WideColor.mk ((sumR base l i : ℕ) : ℚ) ((sumG base l i : ℕ) : ℚ)
        ((sumB base l i : ℕ) : ℚ)),
    numBars := (goodEntries l).length,
    coloredLeds := coloredOf l }

/-- The color the normalisation loop writes at bar bucket `i`. -/
def avgColor (st : BarState) (i : ℕ) : Color :=
  let w := st.topBar.getD i ⟨0, 0, 0⟩
  ⟨f64AsU8 (fdiv w.r ((st.numBars : ℕ) : ℚ)),
   f64AsU8 (fdiv w.g ((st.numBars : ℕ) : ℚ)),
   f64AsU8 (fdiv w.b ((st.numBars : ℕ) : ℚ))⟩

/-! ### Facts about the rounding model -/

theorem floatRound_zero : floatRound 0 = 0 := by simp [floatRound]

/-- Bracketing characterisation of `Int.log 2`, used to pin down the exponent
of concrete inputs. -/
theorem qexp_eq_of_bracket {q : ℚ} {k : ℤ} (hlo : (2 : ℚ) ^ k ≤ q)
    (hhi : q < (2 : ℚ) ^ (k + 1)) : qexp q = k := by
  have hq : 0 < q := lt_of_lt_of_le (zpow_pos (by norm_num) k) hlo
  have h1 : k ≤ Int.log 2 q := by
    rw [← Int.zpow_le_iff_le_log (by norm_num) hq]
    exact_mod_cast hlo
  have h2 : Int.log 2 q < k + 1 := by
    rw [← Int.lt_zpow_iff_log_lt (by norm_num) hq]
    exact_mod_cast hhi
  unfold qexp
  omega

/-- Upper bound for the exponent from an upper bound on the value. -/
theorem qexp_le_of_lt {q : ℚ} {k : ℤ} (hq : 0 < q) (h : q < (2 : ℚ) ^ (k + 1)) :
    qexp q ≤ k := by
  have h2 : Int.log 2 q < k + 1 := by
    rw [← Int.lt_zpow_iff_log_lt (by norm_num) hq]
    exact_mod_cast h
  unfold qexp
  omega

/-- Lower bound `2^(qexp q) ≤ q` for positive `q`. -/
theorem zpow_qexp_le {q : ℚ} (hq : 0 < q) : (2 : ℚ) ^ qexp q ≤ q :=
  Int.zpow_log_le_self (by norm_num) hq

/-- Rounding to the nearest integer moves the value by at most one half. -/
theorem roundInt_le (m : ℚ) : (roundInt m : ℚ) ≤ m + 1 / 2 := by
  have hfl_le : ((⌊m⌋ : ℤ) : ℚ) ≤ m := Int.floor_le m
  unfold roundInt
  split
  · linarith
  · next h1 =>
    push_neg at h1
    split
    · push_cast
      linarith
    · split
      · linarith
      · push_cast
        linarith

/-- Round-to-nearest of a nonnegative value is nonnegative. -/
theorem roundInt_nonneg {m : ℚ} (hm : 0 ≤ m) : 0 ≤ roundInt m := by
  have hfl0 : 0 ≤ ⌊m⌋ := Int.floor_nonneg.mpr hm
  unfold roundInt
  split
  · exact hfl0
  · split
    · omega
    · split
      · exact hfl0
      · omega

/-- An integer rounds to itself. -/
theorem roundInt_intCast (K : ℤ) : roundInt (K : ℚ) = K := by
  unfold roundInt
  rw [Int.floor_intCast]
  rw [if_pos (by norm_num)]

/-- Rounding never adds more than half an ulp: `roundPos q ≤ q + 2^(qexp q - 53)`. -/
theorem roundPos_le (q : ℚ) : roundPos q ≤ q + 2 ^ (qexp q - 53) := by
  unfold roundPos
  set e := qexp q with he
  set m : ℚ := q * 2 ^ (52 - e) with hm
  have hmr : (roundInt m : ℚ) ≤ m + 1 / 2 := roundInt_le m
  have hpow : (0 : ℚ) < 2 ^ (e - 52) := zpow_pos (by norm_num) _
  calc (roundInt m : ℚ) * 2 ^ (e - 52)
      ≤ (m + 1 / 2) * 2 ^ (e - 52) := mul_le_mul_of_nonneg_right hmr (le_of_lt hpow)
    _ = q + 2 ^ (e - 53) := by
        rw [hm]
        have h1 : (2 : ℚ) ^ (52 - e) * 2 ^ (e - 52) = 1 := by
          rw [← zpow_add₀ (by norm_num : (2:ℚ) ≠ 0)]
          norm_num
        have h2 : (1 / 2 : ℚ) * 2 ^ (e - 52) = 2 ^ (e - 53) := by
          have h3 : (1 / 2 : ℚ) = 2 ^ (-1 : ℤ) := by norm_num
          rw [h3, ← zpow_add₀ (by norm_num : (2:ℚ) ≠ 0)]
          ring_nf
        calc (q * 2 ^ (52 - e) + 1 / 2) * 2 ^ (e - 52)
            = q * (2 ^ (52 - e) * 2 ^ (e - 52)) + 1 / 2 * 2 ^ (e - 52) := by ring
          _ = q + 2 ^ (e - 53) := by rw [h1, h2, mul_one]

/-- Rounding keeps positives nonnegative. -/
theorem roundPos_nonneg (q : ℚ) (hq : 0 < q) : 0 ≤ roundPos q := by
  unfold roundPos
  have hm0 : (0 : ℚ) ≤ q * 2 ^ (52 - qexp q) := by
    apply mul_nonneg (le_of_lt hq)
    exact le_of_lt (zpow_pos (by norm_num) _)
  have hpow : (0 : ℚ) ≤ 2 ^ (qexp q - 52) := le_of_lt (zpow_pos (by norm_num) _)
  apply mul_nonneg _ hpow
  exact_mod_cast roundInt_nonneg hm0

theorem floatRound_nonneg {q : ℚ} (hq : 0 ≤ q) : 0 ≤ floatRound q := by
  unfold floatRound
  rcases lt_or_eq_of_le hq with h | h
  · rw [if_neg (by linarith), if_neg (by linarith)]
    exact roundPos_nonneg q h
  · simp [← h]

/-- Dyadic rationals with a numerator below `2^53` are binary64 values, hence
rounded to themselves. -/
theorem floatRound_dyadic (a j : ℕ) (ha0 : 0 < a) (ha : a < 2 ^ 53) :
    floatRound ((a : ℚ) / 2 ^ j) = (a : ℚ) / 2 ^ j := by
  set q : ℚ := (a : ℚ) / 2 ^ j with hqdef
  have h2j : (0 : ℚ) < 2 ^ j := by positivity
  have hq : 0 < q := div_pos (by exact_mod_cast ha0) h2j
  have hzj : ((2 : ℚ) ^ j) = (2 : ℚ) ^ (j : ℤ) := (zpow_natCast (2 : ℚ) j).symm
  have he : qexp q ≤ 52 - (j : ℤ) := by
    apply qexp_le_of_lt hq
    have h1 : q < (2 : ℚ) ^ 53 / 2 ^ j := by
      rw [hqdef]
      exact (div_lt_div_iff_of_pos_right h2j).mpr (by exact_mod_cast ha)
    have h2 : (2 : ℚ) ^ 53 / 2 ^ j = (2 : ℚ) ^ (52 - (j : ℤ) + 1) := by
      rw [hzj, show (2 : ℚ) ^ 53 = (2 : ℚ) ^ (53 : ℤ) from (zpow_natCast _ _).symm,
        ← zpow_sub₀ (by norm_num : (2 : ℚ) ≠ 0)]
      congr 1
      omega
    rw [← h2]
    exact h1
  unfold floatRound
  rw [if_neg (ne_of_gt hq), if_neg (not_lt.mpr (le_of_lt hq))]
  unfold roundPos
  set e := qexp q with hedef
  have hkey : (0 : ℤ) ≤ 52 - e - (j : ℤ) := by omega
  have hm : q * 2 ^ (52 - e) = (((a * 2 ^ (52 - e - (j : ℤ)).toNat : ℕ) : ℤ) : ℚ) := by
    push_cast
    rw [← zpow_natCast (2 : ℚ) (52 - e - (j : ℤ)).toNat, Int.toNat_of_nonneg hkey,
      hqdef, hzj, div_mul_eq_mul_div, mul_div_assoc,
      ← zpow_sub₀ (by norm_num : (2 : ℚ) ≠ 0)]
  rw [hm, roundInt_intCast, ← hm, mul_assoc, ← zpow_add₀ (by norm_num : (2 : ℚ) ≠ 0)]
  norm_num

/-- Natural numbers below `2^53` round to themselves. -/
theorem floatRound_nat (a : ℕ) (ha : a < 2 ^ 53) : floatRound (a : ℚ) = (a : ℚ) := by
  rcases Nat.eq_zero_or_pos a with h | h
  · subst h
    simpa using floatRound_zero
  · have := floatRound_dyadic a 0 h ha
    simpa using this

/-- Addition of small naturals is exact in binary64. -/
theorem fadd_nat {a b : ℕ} (h : a + b < 2 ^ 53) :
    fadd (a : ℚ) (b : ℚ) = ((a + b : ℕ) : ℚ) := by
  unfold fadd
  rw [show (a : ℚ) + (b : ℚ) = ((a + b : ℕ) : ℚ) by push_cast; ring]
  exact floatRound_nat _ h

theorem floatRound_one : floatRound 1 = 1 := by
  simpa using floatRound_nat 1 (by norm_num)

/-- Values in `(0, 17]` round strictly below 18 (they gain at most half an ulp,
which at exponent at most 4 is far below 1). -/
theorem floatRound_lt_18 {q : ℚ} (h0 : 0 < q) (h17 : q ≤ 17) : floatRound q < 18 := by
  have he : qexp q ≤ 4 := by
    apply qexp_le_of_lt h0
    have : ((2 : ℚ) ^ ((4 : ℤ) + 1)) = 32 := by norm_num
    rw [this]
    linarith
  have hulp : (2 : ℚ) ^ (qexp q - 53) ≤ 2 ^ (-1 : ℤ) :=
    zpow_le_zpow_right₀ (by norm_num) (by omega)
  have h2 : ((2 : ℚ) ^ (-1 : ℤ)) = 1 / 2 := by norm_num
  unfold floatRound
  rw [if_neg (ne_of_gt h0), if_neg (not_lt.mpr (le_of_lt h0))]
  have := roundPos_le q
  rw [h2] at hulp
  linarith

/-- Values in `(0, 17]` keep a nonnegative floor after rounding, and the
truncating `as usize` conversion lands in `[0, 17]`. -/
theorem f64AsUsize_le_17 {q : ℚ} (h0 : 0 < q) (h17 : q ≤ 17) :
    f64AsUsize (floatRound q) ≤ 17 := by
  have hlt : floatRound q < 18 := floatRound_lt_18 h0 h17
  have hfl : ⌊floatRound q⌋ < 18 := Int.floor_lt.mpr (by exact_mod_cast hlt)
  unfold f64AsUsize
  omega

/-- Ceiling-then-truncate of a value in `(0, 17]` lands in `[0, 18]`. -/
theorem f64CeilAsU32_le_18 {q : ℚ} (h0 : 0 < q) (h17 : q ≤ 17) :
    f64CeilAsU32 (floatRound q) ≤ 18 := by
  have hlt : floatRound q < 18 := floatRound_lt_18 h0 h17
  have hce : ⌈floatRound q⌉ ≤ 18 := Int.ceil_le.mpr (by exact_mod_cast le_of_lt hlt)
  unfold f64CeilAsU32
  omega

/-- Evaluation helper for `floatRound` at a concrete positive input: supply the
exponent bracket and the value of the rounded significand. -/
theorem floatRound_eval {q r : ℚ} {k : ℤ} (hlo : (2 : ℚ) ^ k ≤ q)
    (hhi : q < (2 : ℚ) ^ (k + 1))
    (hr : (roundInt (q * 2 ^ (52 - k)) : ℚ) * 2 ^ (k - 52) = r) :
    floatRound q = r := by
  have h0 : 0 < q := lt_of_lt_of_le (zpow_pos (by norm_num) k) hlo
  unfold floatRound roundPos
  rw [if_neg (ne_of_gt h0), if_neg (not_lt.mpr (le_of_lt h0)),
    qexp_eq_of_bracket hlo hhi, hr]

/-- Evaluation helper for `roundInt` when the input sits exactly half way
between two integers and the lower one is even. -/
theorem roundInt_half_even {m : ℚ} {K : ℤ} (hm : m = (K : ℚ) + 1 / 2)
    (hK : K % 2 = 0) : roundInt m = K := by
  have hfl : ⌊m⌋ = K := by
    rw [hm, Int.floor_eq_iff]
    constructor
    · linarith
    · push_cast
      linarith
  unfold roundInt
  rw [hfl, hm]
  have h1 : (K : ℚ) + 1 / 2 - (K : ℚ) = 1 / 2 := by ring
  rw [h1, if_neg (by norm_num), if_neg (by norm_num), if_pos hK]

/-- Evaluation helper for `roundInt` when the fractional part is below one
half. -/
theorem roundInt_near_floor {m : ℚ} {K : ℤ} (hfl : ⌊m⌋ = K)
    (h : m - (K : ℚ) < 1 / 2) : roundInt m = K := by
  unfold roundInt
  rw [hfl, if_pos h]

/-! ### Endpoint behaviour of `lerp_color` -/

theorem floatRound_u8 (n : Fin 256) : floatRound ((n.val : ℕ) : ℚ) = ((n.val : ℕ) : ℚ) :=
  floatRound_nat n.val (lt_trans n.isLt (by norm_num))

theorem f64AsU8_natCast (n : Fin 256) : f64AsU8 ((n.val : ℕ) : ℚ) = n := by
  unfold f64AsU8
  apply Fin.ext
  simp only [Int.floor_natCast, Int.toNat_natCast]
  omega

theorem rustClamp_of_one_le {t : ℚ} (h : 1 ≤ t) : rustClamp t 0 1 = 1 := by
  unfold rustClamp
  rw [if_neg (by linarith)]
  split
  · rfl
  · linarith

theorem rustClamp_of_nonpos {t : ℚ} (h : t ≤ 0) : rustClamp t 0 1 = 0 := by
  unfold rustClamp
  split
  · rfl
  · next h1 =>
    push_neg at h1
    rw [if_neg (by linarith)]
    linarith

/-- Single interpolated channel at clamped parameter 1: the result is exactly
the target channel. -/
theorem lerp_channel_one (a b : Fin 256) :
    f64AsU8 (fadd (fmul ((a.val : ℕ) : ℚ) (fsub 1 1)) (fmul ((b.val : ℕ) : ℚ) 1)) = b := by
  have h1 : fsub 1 1 = 0 := by
    unfold fsub
    rw [show (1 : ℚ) - 1 = 0 by ring, floatRound_zero]
  have h2 : fmul ((a.val : ℕ) : ℚ) 0 = 0 := by
    unfold fmul
    rw [mul_zero, floatRound_zero]
  have h3 : fmul ((b.val : ℕ) : ℚ) 1 = ((b.val : ℕ) : ℚ) := by
    unfold fmul
    rw [mul_one, floatRound_u8]
  rw [h1, h2, h3]
  unfold fadd
  rw [zero_add, floatRound_u8]
  exact f64AsU8_natCast b

/-- Single interpolated channel at clamped parameter 0: the result is exactly
the source channel. -/
theorem lerp_channel_zero (a b : Fin 256) :
    f64AsU8 (fadd (fmul ((a.val : ℕ) : ℚ) (fsub 1 0)) (fmul ((b.val : ℕ) : ℚ) 0)) = a := by
  have h1 : fsub 1 0 = 1 := by
    unfold fsub
    rw [show (1 : ℚ) - 0 = 1 by ring, floatRound_one]
  have h2 : fmul ((b.val : ℕ) : ℚ) 0 = 0 := by
    unfold fmul
    rw [mul_zero, floatRound_zero]
  have h3 : fmul ((a.val : ℕ) : ℚ) 1 = ((a.val : ℕ) : ℚ) := by
    unfold fmul
    rw [mul_one, floatRound_u8]
  rw [h1, h2, h3]
  unfold fadd
  rw [add_zero, floatRound_u8]
  exact f64AsU8_natCast a

/-- Interpolation at any parameter at least 1 yields the target color. -/
theorem lerp_color_of_one_le (cfrom cto : Color) {t : ℚ} (h : 1 ≤ t) :
    lerp_color cfrom cto t = cto := by
  unfold lerp_color
  rw [rustClamp_of_one_le h]
  cases cto
  simp only [Color.mk.injEq]
  exact ⟨lerp_channel_one _ _, lerp_channel_one _ _, lerp_channel_one _ _⟩

/-- Interpolation at any parameter at most 0 yields the source color. -/
theorem lerp_color_of_nonpos (cfrom cto : Color) {t : ℚ} (h : t ≤ 0) :
    lerp_color cfrom cto t = cfrom := by
  unfold lerp_color
  rw [rustClamp_of_nonpos h]
  cases cfrom
  simp only [Color.mk.injEq]
  exact ⟨lerp_channel_zero _ _, lerp_channel_zero _ _, lerp_channel_zero _ _⟩

/-! ### Concrete binary64 roundings occurring in `lerp_color (3,3,3) (3,3,3) (3·2⁻⁵⁴)`.
The parameter `t = 3·2⁻⁵⁴` is exactly representable in binary64, so it is a
legitimate input value for the `f64` argument of `lerp_color`. -/

/-- `1.0 - 3·2⁻⁵⁴` rounds (tie to even) to `1 - 2⁻⁵²`. -/
theorem floatRound_near_one_tie : floatRound (1 - 3 / 2 ^ 54) = 1 - 1 / 2 ^ 52 := by
  apply floatRound_eval (k := -1)
  · norm_num
  · norm_num
  · rw [roundInt_half_even (K := 2 ^ 53 - 2) (by push_cast; norm_num) (by decide)]
    push_cast
    norm_num

/-- `3.0 * (1 - 2⁻⁵²) = 3 - 3·2⁻⁵²` rounds (tie to even) to `3 - 2⁻⁵⁰`. -/
theorem floatRound_three_tie : floatRound (3 - 3 / 2 ^ 52) = 3 - 1 / 2 ^ 50 := by
  apply floatRound_eval (k := 1)
  · norm_num
  · norm_num
  · rw [roundInt_half_even (K := 3 * 2 ^ 51 - 2) (by push_cast; norm_num) (by decide)]
    push_cast
    norm_num

/-- `(3 - 2⁻⁵⁰) + 9·2⁻⁵⁴ = 3 - 7·2⁻⁵⁴` rounds down to `3 - 2⁻⁵¹`, strictly
below 3. -/
theorem floatRound_three_sum : floatRound (3 - 7 / 2 ^ 54) = 3 - 1 / 2 ^ 51 := by
  apply floatRound_eval (k := 1)
  · norm_num
  · norm_num
  · rw [roundInt_near_floor (K := 3 * 2 ^ 51 - 1)
      (by
        apply Int.floor_eq_iff.mpr
        constructor
        · push_cast
          norm_num
        · push_cast
          norm_num)
      (by push_cast; norm_num)]
    push_cast
    norm_num

/-- Full evaluation of the interpolation of the color `(3,3,3)` with itself at
parameter `3·2⁻⁵⁴`: every channel comes out as 2, one below the input. -/
theorem lerp_color_three_drop :
    lerp_color ⟨3, 3, 3⟩ ⟨3, 3, 3⟩ (3 / 2 ^ 54) = ⟨2, 2, 2⟩ := by
  have hclamp : rustClamp (3 / 2 ^ 54) 0 1 = 3 / 2 ^ 54 := by
    unfold rustClamp
    rw [if_neg (by norm_num), if_neg (by norm_num)]
  have hval : (((3 : Fin 256).val : ℕ) : ℚ) = 3 := rfl
  have e1 : fsub 1 (3 / 2 ^ 54) = 1 - 1 / 2 ^ 52 := floatRound_near_one_tie
  have e2 : fmul 3 (1 - 1 / 2 ^ 52) = 3 - 1 / 2 ^ 50 := by
    unfold fmul
    rw [show (3 : ℚ) * (1 - 1 / 2 ^ 52) = 3 - 3 / 2 ^ 52 by ring]
    exact floatRound_three_tie
  have e3 : fmul 3 (3 / 2 ^ 54) = 9 / 2 ^ 54 := by
    unfold fmul
    rw [show (3 : ℚ) * (3 / 2 ^ 54) = ((9 : ℕ) : ℚ) / 2 ^ 54 by push_cast; ring]
    rw [floatRound_dyadic 9 54 (by norm_num) (by norm_num)]
    push_cast
    ring
  have e4 : fadd (3 - 1 / 2 ^ 50) (9 / 2 ^ 54) = 3 - 1 / 2 ^ 51 := by
    unfold fadd
    rw [show (3 - 1 / 2 ^ 50 : ℚ) + 9 / 2 ^ 54 = 3 - 7 / 2 ^ 54 by ring]
    exact floatRound_three_sum
  have easU8 : f64AsU8 (3 - 1 / 2 ^ 51) = (2 : Fin 256) := by
    have h : ⌊(3 - 1 / 2 ^ 51 : ℚ)⌋ = 2 := by
      apply Int.floor_eq_iff.mpr
      constructor
      · norm_num
      · norm_num
    apply Fin.ext
    show min ⌊(3 - 1 / 2 ^ 51 : ℚ)⌋.toNat 255 = _
    rw [h]
    decide
  unfold lerp_color
  rw [hclamp]
  have hchan : f64AsU8 (fadd (fmul (((3 : Fin 256).val : ℕ) : ℚ) (fsub 1 (3 / 2 ^ 54)))
      (fmul (((3 : Fin 256).val : ℕ) : ℚ) (3 / 2 ^ 54))) = (2 : Fin 256) := by
    rw [hval, e1, e2, e3, e4, easU8]
  show Color.mk _ _ _ = _
  rw [hchan]

/-! ### Bounds on the progress-loop quantities for ratios in `(0, 1]` -/

theorem top_row_cast : ((TOP_ROW_LENGTH : ℕ) : ℚ) = 17 := by
  norm_num [TOP_ROW_LENGTH, ROW_LENGTH, COL_OFFSET_END, COL_OFFSET_START]

theorem entryScaled_bounds {e : Color × ℚ} (h0 : ¬e.2 ≤ 0) (h1 : e.2 ≤ 1) :
    0 < e.2 * ((TOP_ROW_LENGTH : ℕ) : ℚ) ∧ e.2 * ((TOP_ROW_LENGTH : ℕ) : ℚ) ≤ 17 := by
  push_neg at h0
  rw [top_row_cast]
  constructor
  · positivity
  · nlinarith

theorem entryFilled_le_17 {e : Color × ℚ} (h0 : ¬e.2 ≤ 0) (h1 : e.2 ≤ 1) :
    entryFilled e ≤ 17 := by
  obtain ⟨hp, hle⟩ := entryScaled_bounds h0 h1
  exact f64AsUsize_le_17 hp hle

theorem entryCeil_le_18 {e : Color × ℚ} (h0 : ¬e.2 ≤ 0) (h1 : e.2 ≤ 1) :
    entryCeil e ≤ 18 := by
  obtain ⟨hp, hle⟩ := entryScaled_bounds h0 h1
  exact f64CeilAsU32_le_18 hp hle

theorem entryFilled_le_entryCeil {e : Color × ℚ} (h0 : ¬e.2 ≤ 0) (h1 : e.2 ≤ 1) :
    entryFilled e ≤ entryCeil e := by
  obtain ⟨hp, hle⟩ := entryScaled_bounds h0 h1
  have hnn : 0 ≤ entryScaled e := floatRound_nonneg (le_of_lt hp)
  have hlt : entryScaled e < 18 := floatRound_lt_18 hp hle
  have h1' : ⌊entryScaled e⌋ ≤ ⌈entryScaled e⌉ := Int.floor_le_ceil _
  have h2 : ⌈entryScaled e⌉ ≤ 18 := Int.ceil_le.mpr (by exact_mod_cast le_of_lt hlt)
  have h3 : (0 : ℤ) ≤ ⌊entryScaled e⌋ := Int.floor_nonneg.mpr hnn
  unfold entryFilled entryCeil f64AsUsize f64CeilAsU32
  omega

theorem coloredOf_aux_le (l : List (Color × ℚ)) (acc : ℕ) (hacc : acc ≤ 18)
    (hr : ∀ e ∈ l, e.2 ≤ 1) :
    l.foldl (fun acc e => if e.2 ≤ 0 then acc else max acc (entryCeil e)) acc ≤ 18 := by
  induction l generalizing acc with
  | nil => exact hacc
  | cons e rest ih =>
    simp only [List.foldl_cons]
    apply ih
    · by_cases h0 : e.2 ≤ 0
      · rw [if_pos h0]
        exact hacc
      · rw [if_neg h0]
        exact max_le hacc (entryCeil_le_18 h0 (hr e (List.mem_cons_self e rest)))
    · intro x hx
      exact hr x (List.mem_cons_of_mem e hx)

/-- The `colored_leds` total never exceeds 18 for in-range ratios. -/
theorem coloredOf_le_18 {l : List (Color × ℚ)} (hr : ∀ e ∈ l, e.2 ≤ 1) :
    coloredOf l ≤ 18 :=
  coloredOf_aux_le l 0 (by norm_num) hr

theorem coloredOf_aux_mono (l : List (Color × ℚ)) (acc : ℕ) :
    acc ≤ l.foldl (fun acc e => if e.2 ≤ 0 then acc else max acc (entryCeil e)) acc := by
  induction l generalizing acc with
  | nil => exact le_refl acc
  | cons e rest ih =>
    simp only [List.foldl_cons]
    refine le_trans ?_ (ih _)
    by_cases h0 : e.2 ≤ 0
    · rw [if_pos h0]
    · rw [if_neg h0]
      exact le_max_left _ _

/-- The fold computing `colored_leds` is monotone in its accumulator. -/
theorem coloredOf_foldl_mono (l : List (Color × ℚ)) {a b : ℕ} (h : a ≤ b) :
    l.foldl (fun acc e => if e.2 ≤ 0 then acc else max acc (entryCeil e)) a ≤
      l.foldl (fun acc e => if e.2 ≤ 0 then acc else max acc (entryCeil e)) b := by
  induction l generalizing a b with
  | nil => exact h
  | cons y ys ih =>
    simp only [List.foldl_cons]
    apply ih
    by_cases hy : y.2 ≤ 0
    · rw [if_pos hy, if_pos hy]
      exact h
    · rw [if_neg hy, if_neg hy]
      exact max_le_max h (le_refl _)

/-- Every non-skipped entry's ceiling is dominated by the final
`colored_leds`. -/
theorem entryCeil_le_coloredOf {l : List (Color × ℚ)} {e : Color × ℚ}
    (he : e ∈ l) (h0 : ¬e.2 ≤ 0) : entryCeil e ≤ coloredOf l := by
  unfold coloredOf
  induction l with
  | nil => cases he
  | cons x rest ih =>
    simp only [List.foldl_cons]
    rcases List.mem_cons.mp he with h | h
    · subst h
      rw [if_neg h0]
      exact le_trans (le_max_right _ _) (coloredOf_aux_mono rest _)
    · exact le_trans (ih h) (coloredOf_foldl_mono rest (Nat.zero_le _))

/-- A sum of `u8` channel values is bounded by `255 ·` the list length. -/
theorem sum_channel_le (l : List (Color × ℚ)) (f : (Color × ℚ) → ℕ)
    (hf : ∀ e, f e ≤ 255) : (l.map f).sum ≤ 255 * l.length := by
  have h := List.sum_le_card_nsmul (l.map f) 255 ?_
  · simpa [List.length_map, smul_eq_mul, Nat.mul_comm] using h
  · intro x hx
    obtain ⟨e, _, hex⟩ := List.mem_map.mp hx
    subst hex
    exact hf e

/-- Channel totals are bounded by `255 ·` the number of entries. -/
theorem sumR_le (base : Frame) (l : List (Color × ℚ)) (i : ℕ) :
    sumR base l i ≤ 255 * l.length :=
  sum_channel_le l _ (fun e => by have := (entryContrib base e i).r.isLt; omega)

theorem sumG_le (base : Frame) (l : List (Color × ℚ)) (i : ℕ) :
    sumG base l i ≤ 255 * l.length :=
  sum_channel_le l _ (fun e => by have := (entryContrib base e i).g.isLt; omega)

theorem sumB_le (base : Frame) (l : List (Color × ℚ)) (i : ℕ) :
    sumB base l i ≤ 255 * l.length :=
  sum_channel_le l _ (fun e => by have := (entryContrib base e i).b.isLt; omega)

/-- The `+=` of a `Color` into an exactly-held integer `WideColor` is exact
as long as the totals stay far below `2^53`. -/
theorem addAssignColor_exact {s1 s2 s3 : ℕ} (c : Color)
    (h1 : s1 ≤ 255 * 2 ^ 40) (h2 : s2 ≤ 255 * 2 ^ 40) (h3 : s3 ≤ 255 * 2 ^ 40) :
    addAssignColor (WideColor.mk ((s1 : ℕ) : ℚ) ((s2 : ℕ) : ℚ) ((s3 : ℕ) : ℚ)) c =
      WideColor.mk (((s1 + c.r.val : ℕ) : ℚ)) (((s2 + c.g.val : ℕ) : ℚ))
        (((s3 + c.b.val : ℕ) : ℚ)) := by
  unfold addAssignColor
  have hr : s1 + c.r.val < 2 ^ 53 := by have := c.r.isLt; omega
  have hg : s2 + c.g.val < 2 ^ 53 := by have := c.g.isLt; omega
  have hb : s3 + c.b.val < 2 ^ 53 := by have := c.b.isLt; omega
  rw [fadd_nat hr, fadd_nat hg, fadd_nat hb]

/-! ### The progress loop computes `barStateOf` -/

/-- In-bounds `updateAt` succeeds and is a `set`. -/
theorem updateAt_eq {l : List α} {i : ℕ} (f : α → α) (h : i < l.length) :
    updateAt l i f = some (l.set i (f l[i])) := by
  unfold updateAt
  rw [List.getElem?_eq_getElem h]

/-- In-bounds `getD` is `getElem`. -/
theorem getD_of_lt {l : List α} {n : ℕ} (d : α) (h : n < l.length) : l.getD n d = l[n] := by
  rw [List.getD_eq_getElem?_getD, List.getElem?_eq_getElem h]
  rfl

/-- Expanding a channel total over an appended entry. -/
theorem sumR_append_single (base : Frame) (l₀ : List (Color × ℚ)) (e : Color × ℚ) (i : ℕ) :
    sumR base (l₀ ++ [e]) i = sumR base l₀ i + (entryContrib base e i).r.val := by
  unfold sumR
  rw [List.map_append, List.sum_append]
  simp

theorem sumG_append_single (base : Frame) (l₀ : List (Color × ℚ)) (e : Color × ℚ) (i : ℕ) :
    sumG base (l₀ ++ [e]) i = sumG base l₀ i + (entryContrib base e i).g.val := by
  unfold sumG
  rw [List.map_append, List.sum_append]
  simp

theorem sumB_append_single (base : Frame) (l₀ : List (Color × ℚ)) (e : Color × ℚ) (i : ℕ) :
    sumB base (l₀ ++ [e]) i = sumB base l₀ i + (entryContrib base e i).b.val := by
  unfold sumB
  rw [List.map_append, List.sum_append]
  simp


/-- Appending a skipped entry does not change the closed-form state. -/
theorem barStateOf_skip (base : Frame) (l₀ : List (Color × ℚ)) {e : Color × ℚ}
    (h0 : e.2 ≤ 0) : barStateOf base (l₀ ++ [e]) = barStateOf base l₀ := by
  have h0' : ¬(0 : ℚ) < e.2 := not_lt.mpr h0
  unfold barStateOf
  simp only [BarState.mk.injEq]
  refine ⟨?_, ?_, ?_⟩
  · apply List.map_congr_left
    intro i _
    have hr : sumR base (l₀ ++ [e]) i = sumR base l₀ i := by
      unfold sumR
      rw [List.map_append, List.sum_append]
      simp [entryContrib, h0, BLACK]
    have hg : sumG base (l₀ ++ [e]) i = sumG base l₀ i := by
      unfold sumG
      rw [List.map_append, List.sum_append]
      simp [entryContrib, h0, BLACK]
    have hb : sumB base (l₀ ++ [e]) i = sumB base l₀ i := by
      unfold sumB
      rw [List.map_append, List.sum_append]
      simp [entryContrib, h0, BLACK]
    rw [hr, hg, hb]
  · unfold goodEntries
    rw [List.filter_append]
    simp [h0']
  · unfold coloredOf
    rw [List.foldl_append]
    simp [h0]

set_option maxHeartbeats 1600000 in
/-- Appending a processed entry extends the closed-form state. -/
theorem barStateOf_step (base : Frame) (hbase : base.length = TOTAL_LEDS)
    (l₀ : List (Color × ℚ)) {e : Color × ℚ} (h0 : ¬e.2 ≤ 0) (he : e.2 ≤ 1)
    (hlen : l₀.length ≤ 2 ^ 40) :
    processEntry base (barStateOf base l₀) e = some (barStateOf base (l₀ ++ [e])) := by
  have hF : entryFilled e ≤ 17 := entryFilled_le_17 h0 he
  have h132 : base.length = 132 := by rw [hbase]; rfl
  have hFb : entryFilled e < base.length := by omega
  have hFrow : entryFilled e < ROW_LENGTH := by
    have : ROW_LENGTH = 22 := rfl
    omega
  have hbar_len : (barStateOf base l₀).topBar.length = ROW_LENGTH := by
    simp [barStateOf]
  simp only [processEntry]
  rw [if_neg h0, List.getElem?_eq_getElem hFb]
  show Option.map
      (fun bar => BarState.mk bar ((barStateOf base l₀).numBars + 1)
        (max (barStateOf base l₀).coloredLeds (entryCeil e)))
      (updateAt
        (List.mapIdx (fun i w => if i < entryFilled e then addAssignColor w e.1 else w)
          (barStateOf base l₀).topBar)
        (entryFilled e)
        (fun w => addAssignColor w (lerp_color base[entryFilled e] e.1
          (fsub (entryScaled e) ((entryFilled e : ℕ) : ℚ))))) =
    some (barStateOf base (l₀ ++ [e]))
  have hbar1_len :
      (List.mapIdx (fun i w => if i < entryFilled e then addAssignColor w e.1 else w)
        (barStateOf base l₀).topBar).length = ROW_LENGTH := by
    rw [List.length_mapIdx, hbar_len]
  have hFrow' : entryFilled e <
      (List.mapIdx (fun i w => if i < entryFilled e then addAssignColor w e.1 else w)
        (barStateOf base l₀).topBar).length := by
    omega
  rw [updateAt_eq _ hFrow', Option.map_some']
  simp only [barStateOf, Option.some.injEq, BarState.mk.injEq]
  refine ⟨?_, ?_, ?_⟩
  · apply List.ext_getElem
    · simp
    · intro i hi1 hi2
      by_cases hiF : entryFilled e = i
      · subst hiF
        rw [List.getElem_set, if_pos rfl, List.getElem_mapIdx]
        simp only [List.getElem_map, List.getElem_range]
        rw [if_neg (lt_irrefl _)]
        have hb1 : sumR base l₀ (entryFilled e) ≤ 255 * 2 ^ 40 :=
          le_trans (sumR_le base l₀ _) (Nat.mul_le_mul_left 255 hlen)
        have hb2 : sumG base l₀ (entryFilled e) ≤ 255 * 2 ^ 40 :=
          le_trans (sumG_le base l₀ _) (Nat.mul_le_mul_left 255 hlen)
        have hb3 : sumB base l₀ (entryFilled e) ≤ 255 * 2 ^ 40 :=
          le_trans (sumB_le base l₀ _) (Nat.mul_le_mul_left 255 hlen)
        rw [addAssignColor_exact _ hb1 hb2 hb3]
        rw [sumR_append_single, sumG_append_single, sumB_append_single]
        simp only [entryContrib, if_neg h0, if_neg (lt_irrefl (entryFilled e)), if_pos rfl]
        rw [getD_of_lt BLACK hFb]
        simp
      · rw [List.getElem_set, if_neg hiF, List.getElem_mapIdx]
        simp only [List.getElem_map, List.getElem_range]
        rw [sumR_append_single, sumG_append_single, sumB_append_single]
        have hcontrib : entryContrib base e i =
            if i < entryFilled e then e.1 else BLACK := by
          unfold entryContrib
          rw [if_neg h0]
          by_cases hlt : i < entryFilled e
          · rw [if_pos hlt, if_pos hlt]
          · rw [if_neg hlt, if_neg hlt, if_neg (fun hh => hiF hh.symm)]
        rw [hcontrib]
        have hb1 : sumR base l₀ i ≤ 255 * 2 ^ 40 :=
          le_trans (sumR_le base l₀ _) (Nat.mul_le_mul_left 255 hlen)
        have hb2 : sumG base l₀ i ≤ 255 * 2 ^ 40 :=
          le_trans (sumG_le base l₀ _) (Nat.mul_le_mul_left 255 hlen)
        have hb3 : sumB base l₀ i ≤ 255 * 2 ^ 40 :=
          le_trans (sumB_le base l₀ _) (Nat.mul_le_mul_left 255 hlen)
        by_cases hlt : i < entryFilled e
        · rw [if_pos hlt, if_pos hlt, addAssignColor_exact _ hb1 hb2 hb3]
        · rw [if_neg hlt, if_neg hlt]
          simp [BLACK]
  · unfold goodEntries
    rw [List.filter_append]
    have h0' : decide ((0 : ℚ) < e.2) = true := decide_eq_true (not_le.mp h0)
    simp [h0']
  · unfold coloredOf
    rw [List.foldl_append]
    simp [h0]

/-- Base case: the closed form over no entries is the literal initial state
of `composite`. -/
theorem barStateOf_nil (base : Frame) :
    barStateOf base [] = ⟨List.replicate ROW_LENGTH ⟨0, 0, 0⟩, 0, 0⟩ := by
  unfold barStateOf
  simp only [BarState.mk.injEq]
  refine ⟨?_, rfl, rfl⟩
  apply List.ext_getElem
  · simp
  · intro i h1 h2
    simp [sumR, sumG, sumB]

/-- The progress loop over any suffix extends the closed-form state. -/
theorem progressLoop_eq (base : Frame) (hbase : base.length = TOTAL_LEDS)
    (l l₀ : List (Color × ℚ)) (hr : ∀ e ∈ l, e.2 ≤ 1)
    (hlen : l₀.length + l.length ≤ 2 ^ 40) :
    l.foldlM (processEntry base) (barStateOf base l₀) =
      some (barStateOf base (l₀ ++ l)) := by
  induction l generalizing l₀ with
  | nil => simp
  | cons e rest ih =>
    rw [List.foldlM_cons]
    by_cases h0 : e.2 ≤ 0
    · have hstep : processEntry base (barStateOf base l₀) e =
          some (barStateOf base l₀) := by
        unfold processEntry
        rw [if_pos h0]
      rw [hstep]
      show List.foldlM (processEntry base) (barStateOf base l₀) rest =
        some (barStateOf base (l₀ ++ e :: rest))
      rw [← barStateOf_skip base l₀ h0]
      have hih := ih (l₀ ++ [e])
        (fun x hx => hr x (List.mem_cons_of_mem e hx))
        (by simp at hlen ⊢; omega)
      rw [hih, List.append_assoc]
      simp
    · rw [barStateOf_step base hbase l₀ h0 (hr e (List.mem_cons_self e rest))
        (by simp at hlen; omega)]
      show List.foldlM (processEntry base) (barStateOf base (l₀ ++ [e])) rest =
        some (barStateOf base (l₀ ++ e :: rest))
      have hih := ih (l₀ ++ [e])
        (fun x hx => hr x (List.mem_cons_of_mem e hx))
        (by simp at hlen ⊢; omega)
      rw [hih, List.append_assoc]
      simp

/-- The progress loop of `composite`, started from its literal initial state,
computes the closed form. -/
theorem progressLoop_full (base : Frame) (hbase : base.length = TOTAL_LEDS)
    (l : List (Color × ℚ)) (hr : ∀ e ∈ l, e.2 ≤ 1) (hlen : l.length ≤ 2 ^ 40) :
    l.foldlM (processEntry base)
      (BarState.mk (List.replicate ROW_LENGTH ⟨0, 0, 0⟩) 0 0) =
      some (barStateOf base l) := by
  rw [← barStateOf_nil base]
  simpa using progressLoop_eq base hbase l [] hr (by simpa)

/-! ### Characterisation of the frame-write loops -/

/-- The flash branch writes exactly the run `start .. start+n-1`. -/
theorem setRun_eq {f : Frame} {start : ℕ} (n : ℕ) (c : Color) (h : start + n ≤ f.length) :
    ∃ g : Frame, setRun f start n c = some g ∧ g.length = f.length ∧
      ∀ j : ℕ, g[j]? = if start ≤ j ∧ j < start + n then some c else f[j]? := by
  induction n with
  | zero =>
    refine ⟨f, rfl, rfl, ?_⟩
    intro j
    rw [if_neg (by omega)]
  | succ n ih =>
    obtain ⟨g, hg, hglen, hgp⟩ := ih (by omega)
    have hsplit : setRun f start (n + 1) c =
        (setRun f start n c).bind (fun fr => setChecked fr (n + start) c) := by
      unfold setRun
      rw [List.range_succ, List.foldlM_append]
      simp
    have hset : setChecked g (n + start) c = some (g.set (n + start) c) := by
      unfold setChecked
      rw [if_pos (by omega)]
    refine ⟨g.set (n + start) c, ?_, by simp [hglen], ?_⟩
    · rw [hsplit, hg]
      show setChecked g (n + start) c = some (g.set (n + start) c)
      exact hset
    · intro j
      rw [List.getElem?_set]
      by_cases hij : n + start = j
      · rw [if_pos hij, if_pos (by omega), if_pos (by omega)]
      · rw [if_neg hij, hgp j]
        by_cases hin : start ≤ j ∧ j < start + n
        · rw [if_pos hin, if_pos (by omega)]
        · rw [if_neg hin, if_neg (by omega)]

/-- The normalisation loop writes exactly the run
`COL_OFFSET_START .. COL_OFFSET_START+colored_leds-1` with the averaged bar
colors. -/
theorem averageRun_eq {f : Frame} {st : BarState}
    (hbar : st.coloredLeds ≤ st.topBar.length)
    (h : COL_OFFSET_START + st.coloredLeds ≤ f.length) :
    ∃ g, averageRun f st = some g ∧ g.length = f.length ∧
      ∀ j, g[j]? =
        if COL_OFFSET_START ≤ j ∧ j < COL_OFFSET_START + st.coloredLeds
        then some (avgColor st (j - COL_OFFSET_START)) else f[j]? := by
  suffices haux : ∀ n, n ≤ st.topBar.length → COL_OFFSET_START + n ≤ f.length →
      ∃ g, (List.range n).foldlM
        (fun fr i =>
          match st.topBar[i]? with
          | some w =>
            setChecked fr (i + COL_OFFSET_START)
              ⟨f64AsU8 (fdiv w.r ((st.numBars : ℕ) : ℚ)),
               f64AsU8 (fdiv w.g ((st.numBars : ℕ) : ℚ)),
               f64AsU8 (fdiv w.b ((st.numBars : ℕ) : ℚ))⟩
          | none => none) f = some g ∧ g.length = f.length ∧
        ∀ j, g[j]? =
          if COL_OFFSET_START ≤ j ∧ j < COL_OFFSET_START + n
          then some (avgColor st (j - COL_OFFSET_START)) else f[j]? by
    exact haux st.coloredLeds hbar h
  intro n
  induction n with
  | zero =>
    intro _ _
    refine ⟨f, rfl, rfl, ?_⟩
    intro j
    rw [if_neg (by omega)]
  | succ n ih =>
    intro hn hf
    obtain ⟨g, hg, hglen, hgp⟩ := ih (by omega) (by omega)
    have hnb : n < st.topBar.length := by omega
    have havg : avgColor st n =
        ⟨f64AsU8 (fdiv st.topBar[n].r ((st.numBars : ℕ) : ℚ)),
         f64AsU8 (fdiv st.topBar[n].g ((st.numBars : ℕ) : ℚ)),
         f64AsU8 (fdiv st.topBar[n].b ((st.numBars : ℕ) : ℚ))⟩ := by
      unfold avgColor
      rw [getD_of_lt _ hnb]
    have hset : setChecked g (n + COL_OFFSET_START)
        ⟨f64AsU8 (fdiv st.topBar[n].r ((st.numBars : ℕ) : ℚ)),
         f64AsU8 (fdiv st.topBar[n].g ((st.numBars : ℕ) : ℚ)),
         f64AsU8 (fdiv st.topBar[n].b ((st.numBars : ℕ) : ℚ))⟩ =
        some (g.set (n + COL_OFFSET_START)
          ⟨f64AsU8 (fdiv st.topBar[n].r ((st.numBars : ℕ) : ℚ)),
           f64AsU8 (fdiv st.topBar[n].g ((st.numBars : ℕ) : ℚ)),
           f64AsU8 (fdiv st.topBar[n].b ((st.numBars : ℕ) : ℚ))⟩) := by
      unfold setChecked
      rw [if_pos (by omega)]
    refine ⟨g.set (n + COL_OFFSET_START)
      ⟨f64AsU8 (fdiv st.topBar[n].r ((st.numBars : ℕ) : ℚ)),
       f64AsU8 (fdiv st.topBar[n].g ((st.numBars : ℕ) : ℚ)),
       f64AsU8 (fdiv st.topBar[n].b ((st.numBars : ℕ) : ℚ))⟩, ?_, by simp [hglen], ?_⟩
    · rw [List.range_succ, List.foldlM_append]
      simp only [List.foldlM_cons, List.foldlM_nil]
      rw [hg]
      show ((match st.topBar[n]? with
        | some w =>
          setChecked g (n + COL_OFFSET_START)
            ⟨f64AsU8 (fdiv w.r ((st.numBars : ℕ) : ℚ)),
             f64AsU8 (fdiv w.g ((st.numBars : ℕ) : ℚ)),
             f64AsU8 (fdiv w.b ((st.numBars : ℕ) : ℚ))⟩
        | none => none).bind some) = _
      rw [List.getElem?_eq_getElem hnb]
      show (setChecked g (n + COL_OFFSET_START) _).bind some = _
      rw [hset]
      rfl
    · intro j
      rw [List.getElem?_set]
      by_cases hij : n + COL_OFFSET_START = j
      · rw [if_pos (by omega), if_pos (by omega),
          if_pos (show COL_OFFSET_START ≤ j ∧ j < COL_OFFSET_START + (n + 1) by omega)]
        have hjn : j - COL_OFFSET_START = n := by omega
        rw [hjn, havg]
      · rw [if_neg hij, hgp j]
        by_cases hin : COL_OFFSET_START ≤ j ∧ j < COL_OFFSET_START + n
        · rw [if_pos hin, if_pos (by omega)]
        · rw [if_neg hin, if_neg (by omega)]

/-- The notification-marker loop succeeds exactly when it stays in bounds,
writing one color per notification in order. -/
theorem writeNotifs_eq {ns : List Notification} :
    ∀ (f : Frame) (start : ℕ), start + ns.length ≤ f.length →
    ∃ g, writeNotifs f start ns = some g ∧ g.length = f.length ∧
      (∀ j, (j < start ∨ start + ns.length ≤ j) → g[j]? = f[j]?) ∧
      (∀ j, j < ns.length → g[start + j]? = (ns[j]?).map (fun n => n.settings.color)) := by
  induction ns with
  | nil =>
    intro f start _
    exact ⟨f, rfl, rfl, fun j _ => rfl, fun j hj => absurd hj (by simp)⟩
  | cons n rest ih =>
    intro f start h
    have hs : start < f.length := by simp at h; omega
    have hset : setChecked f start n.settings.color =
        some (f.set start n.settings.color) := by
      unfold setChecked
      rw [if_pos hs]
    obtain ⟨g, hg, hglen, hout, hin⟩ := ih (f.set start n.settings.color) (start + 1)
      (by simp at h ⊢; omega)
    refine ⟨g, ?_, by rw [hglen]; simp, ?_, ?_⟩
    · show writeNotifs f start (n :: rest) = some g
      unfold writeNotifs
      rw [hset]
      exact hg
    · intro j hj
      simp only [List.length_cons] at hj
      have hj' : j < start + 1 ∨ start + 1 + rest.length ≤ j := by omega
      rw [hout j hj', List.getElem?_set, if_neg (by omega)]
    · intro j hj
      cases j with
      | zero =>
        rw [Nat.add_zero, hout start (Or.inl (by omega)), List.getElem?_set,
          if_pos rfl, if_pos hs]
        simp
      | succ k =>
        have hk := hin k (by simp only [List.length_cons] at hj; omega)
        rw [show start + (k + 1) = start + 1 + k by omega, hk]
        simp

/-- The notification-marker loop panics (runs past the end of the frame)
whenever the markers do not fit. -/
theorem writeNotifs_none {ns : List Notification} :
    ∀ (f : Frame) (start : ℕ), ns ≠ [] → f.length < start + ns.length →
    writeNotifs f start ns = none := by
  induction ns with
  | nil =>
    intro f start hne _
    exact absurd rfl hne
  | cons n rest ih =>
    intro f start _ h
    simp only [List.length_cons] at h
    by_cases hs : start < f.length
    · have hset : setChecked f start n.settings.color =
          some (f.set start n.settings.color) := by
        unfold setChecked
        rw [if_pos hs]
      show writeNotifs f start (n :: rest) = none
      unfold writeNotifs
      rw [hset]
      cases rest with
      | nil =>
        exfalso
        simp at h
        omega
      | cons r rs =>
        exact ih _ _ (by simp) (by simp at h ⊢; omega)
    · have hset : setChecked f start n.settings.color = none := by
        unfold setChecked
        rw [if_neg hs]
      show writeNotifs f start (n :: rest) = none
      unfold writeNotifs
      rw [hset]

/-- On a bucket fully filled by every contributing entry, the accumulated
channel total is the plain sum of the contributing entries' channel values. -/
theorem sum_fully (base : Frame) (l : List (Color × ℚ)) (i : ℕ) (f : Color → ℕ)
    (hful : ∀ e ∈ goodEntries l, i < entryFilled e) (hf0 : f BLACK = 0) :
    (l.map (fun e => f (entryContrib base e i))).sum =
      ((goodEntries l).map (fun e => f e.1)).sum := by
  induction l with
  | nil => rfl
  | cons e rest ih =>
    have hrest : ∀ x ∈ goodEntries rest, i < entryFilled x := by
      intro x hx
      apply hful
      exact List.mem_filter.mpr
        ⟨List.mem_cons_of_mem _ (List.mem_filter.mp hx).1, (List.mem_filter.mp hx).2⟩
    by_cases h0 : e.2 ≤ 0
    · have hctr : entryContrib base e i = BLACK := by
        unfold entryContrib
        rw [if_pos h0]
      have hflt : goodEntries (e :: rest) = goodEntries rest := by
        unfold goodEntries
        rw [List.filter_cons]
        simp [not_lt.mpr h0]
      rw [List.map_cons, List.sum_cons, hctr, hf0, Nat.zero_add, hflt, ih hrest]
    · have hin : e ∈ goodEntries (e :: rest) :=
        List.mem_filter.mpr ⟨List.mem_cons_self e rest, decide_eq_true (not_le.mp h0)⟩
      have hctr : entryContrib base e i = e.1 := by
        unfold entryContrib
        rw [if_neg h0, if_pos (hful e hin)]
      have hflt : goodEntries (e :: rest) = e :: goodEntries rest := by
        unfold goodEntries
        rw [List.filter_cons]
        simp [decide_eq_true (not_le.mp h0)]
      rw [List.map_cons, List.sum_cons, hctr, hflt, List.map_cons, List.sum_cons, ih hrest]

/-- General form of the averaging claim: with no flash and no displayed
notifications, a bucket fully filled by every contributing entry displays the
channel-wise mean (in `f64`, truncated by `as u8`) of the contributing
entries' colors. -/
theorem composite_fully_filled (l : List (Color × ℚ)) (base : Frame) (i : ℕ)
    (hlen : base.length = TOTAL_LEDS) (hr : ∀ e ∈ l, e.2 ≤ 1)
    (hcount : l.length ≤ 2 ^ 40) (hgood : goodEntries l ≠ [])
    (hfull : ∀ e ∈ goodEntries l, i < entryFilled e) :
    (composite l [] BLACK base).bind (fun fr => fr[i + COL_OFFSET_START]?) =
      some (Color.mk
        (f64AsU8 (fdiv ((((goodEntries l).map (fun e => e.1.r.val)).sum : ℕ) : ℚ)
          ((((goodEntries l).length : ℕ)) : ℚ)))
        (f64AsU8 (fdiv ((((goodEntries l).map (fun e => e.1.g.val)).sum : ℕ) : ℚ)
          ((((goodEntries l).length : ℕ)) : ℚ)))
        (f64AsU8 (fdiv ((((goodEntries l).map (fun e => e.1.b.val)).sum : ℕ) : ℚ)
          ((((goodEntries l).length : ℕ)) : ℚ)))) := by
  have h132 : TOTAL_LEDS = 132 := rfl
  have hrow : ROW_LENGTH = 22 := rfl
  have hcol : COL_OFFSET_START = 1 := rfl
  have hfold := progressLoop_full base hlen l hr hcount
  obtain ⟨e₀, he₀⟩ : ∃ x, x ∈ goodEntries l := by
    cases hq : goodEntries l with
    | nil => exact absurd hq hgood
    | cons a t => exact ⟨a, hq ▸ List.mem_cons_self a t⟩
  have he₀l : e₀ ∈ l := (List.mem_filter.mp he₀).1
  have he₀p : ¬e₀.2 ≤ 0 := by
    have hd := (List.mem_filter.mp he₀).2
    simp only [decide_eq_true_eq] at hd
    exact not_le.mpr hd
  have hicol : i < coloredOf l :=
    lt_of_lt_of_le (hfull e₀ he₀)
      (le_trans (entryFilled_le_entryCeil he₀p (hr e₀ he₀l))
        (entryCeil_le_coloredOf he₀l he₀p))
  have hcol18 : coloredOf l ≤ 18 := coloredOf_le_18 hr
  have hbarst : (barStateOf base l).coloredLeds = coloredOf l := rfl
  have hbarlen : (barStateOf base l).topBar.length = ROW_LENGTH := by
    simp [barStateOf]
  have hbar1 : (barStateOf base l).coloredLeds ≤ (barStateOf base l).topBar.length := by
    rw [hbarst, hbarlen]
    omega
  have hbound : COL_OFFSET_START + (barStateOf base l).coloredLeds ≤ base.length := by
    rw [hbarst, hlen]
    omega
  obtain ⟨g1, hg1, hg1len, hg1p⟩ := averageRun_eq hbar1 hbound
  have hcomp : composite l [] BLACK base = some g1 := by
    unfold composite
    rw [hfold]
    show (if BLACK ≠ BLACK then setRun base COL_OFFSET_START TOP_ROW_LENGTH BLACK
        else (averageRun base (barStateOf base l)).bind
          (fun nf => writeNotifs nf (COL_OFFSET_START + 2) [])) = some g1
    rw [if_neg (by simp), hg1]
    rfl
  rw [hcomp]
  show g1[i + COL_OFFSET_START]? = _
  rw [hg1p (i + COL_OFFSET_START), if_pos (by rw [hbarst]; omega)]
  congr 1
  unfold avgColor
  have hi22 : i < (barStateOf base l).topBar.length := by
    rw [hbarlen]
    omega
  rw [show i + COL_OFFSET_START - COL_OFFSET_START = i by omega, getD_of_lt _ hi22]
  have hnum : (barStateOf base l).numBars = (goodEntries l).length := rfl
  have htop : (barStateOf base l).topBar[i] =
      WideColor.mk ((sumR base l i : ℕ) : ℚ) ((sumG base l i : ℕ) : ℚ)
        ((sumB base l i : ℕ) : ℚ) := by
    simp only [barStateOf]
    rw [List.getElem_map]
    rw [List.getElem_range]
  rw [htop, hnum]
  have hR : sumR base l i = ((goodEntries l).map (fun e => e.1.r.val)).sum :=
    sum_fully base l i (fun c => c.r.val) hfull rfl
  have hG : sumG base l i = ((goodEntries l).map (fun e => e.1.g.val)).sum :=
    sum_fully base l i (fun c => c.g.val) hfull rfl
  have hB : sumB base l i = ((goodEntries l).map (fun e => e.1.b.val)).sum :=
    sum_fully base l i (fun c => c.b.val) hfull rfl
  rw [show sumR base l i = ((goodEntries l).map (fun e => e.1.r.val)).sum from hR,
    show sumG base l i = ((goodEntries l).map (fun e => e.1.g.val)).sum from hG,
    show sumB base l i = ((goodEntries l).map (fun e => e.1.b.val)).sum from hB]

/-! ## Claims -/

/-- C3: the claim says `num2xy` clamps every out-of-range index into the valid
range and never panics. The clamp upper bound is however the inclusive
`TOTAL_LEDS`, so every `n ≥ TOTAL_LEDS` yields `nc = 132`, `y = 6`, and the
`usize` expression `ROW_COUNT - y - 1` underflows (debug panic / wrap): the
code contradicts the documented intent at `n = TOTAL_LEDS`, while `n = 131`
still maps into the valid range. -/
theorem c3_num2xy_underflow :
    num2xy TOTAL_LEDS = none ∧ num2xy 200 = none ∧
    num2xy (TOTAL_LEDS - 1) = some ⟨21, 0⟩ ∧ num2xy 0 = some ⟨0, 5⟩ := by
  refine ⟨by decide, by decide, by decide, by decide⟩

/-- C4 (counterexample): an unparseable color string does not abort startup —
`parse_hex` falls back to `TRANSPARENT_BLACK` and the notification entry loads
successfully with color black, refuting "the process refuses to start rather
than proceeding with a substituted color". -/
theorem c4_unparseable_color_proceeds :
    parse_hex none = BLACK ∧
    loadNotificationEntry ⟨some none, some none, some true, some true⟩ =
      some ⟨BLACK, true, true, BLACK⟩ := by
  refine ⟨by decide, by decide⟩

/-- C4 (amended): a missing or mistyped required field is fatal at startup
(the `unwrap()` panics), but an unparseable color string is not — loading
proceeds with `parse_hex`'s silent `TRANSPARENT_BLACK` (black) fallback. -/
theorem c4_missing_field_fatal_unparseable_color_not :
    (∀ e : RawNotificationEntry, e.color = none → loadNotificationEntry e = none) ∧
    (∀ (pc fac : Option CssColor) (fon imp : Bool),
      loadNotificationEntry ⟨some pc, some fac, some fon, some imp⟩ =
        some ⟨parse_hex pc, imp, fon, parse_hex fac⟩) := by
  constructor
  · intro e h
    unfold loadNotificationEntry
    rw [h]
    rfl
  · intro pc fac fon imp
    rfl

/-- Witness for C4's amended theorem at concrete entries. -/
theorem c4_missing_field_fatal_witness :
    (RawNotificationEntry.mk none (some none) (some true) (some true)).color = none ∧
    loadNotificationEntry (RawNotificationEntry.mk none (some none) (some true) (some true)) =
      none ∧
    loadNotificationEntry ⟨some none, some none, some false, some true⟩ =
      some ⟨BLACK, true, false, BLACK⟩ :=
  ⟨rfl,
   c4_missing_field_fatal_unparseable_color_not.1 _ rfl,
   (c4_missing_field_fatal_unparseable_color_not.2 none none false true).trans (by decide)⟩

/-- C9 (counterexample): `lerp_color(c, c, t) == c` fails in binary64
arithmetic: at `c = (3,3,3)` and the exactly-representable parameter
`t = 3·2⁻⁵⁴`, every channel of the result is 2, not 3 (the two rounded
products sum to `3 - 2⁻⁵¹ < 3`, and `as u8` truncates). -/
theorem c9_lerp_idempotence_fails :
    lerp_color ⟨3, 3, 3⟩ ⟨3, 3, 3⟩ (3 / 2 ^ 54) ≠ ⟨3, 3, 3⟩ := by
  rw [lerp_color_three_drop]
  decide

/-- C9 (amended): `lerp_color(c, c, t) = c` holds at the clamped endpoints —
for every `t ≤ 0` and every `t ≥ 1`; for intermediate `t` floating-point
evaluation can drop a channel by one. -/
theorem c9_lerp_idempotent_at_endpoints (c : Color) (t : ℚ) :
    (t ≤ 0 → lerp_color c c t = c) ∧ (1 ≤ t → lerp_color c c t = c) :=
  ⟨fun h => lerp_color_of_nonpos c c h, fun h => lerp_color_of_one_le c c h⟩

/-- Witness for C9's amended theorem at `c = WHITE`, `t = 0` and `t = 1`. -/
theorem c9_lerp_idempotent_at_endpoints_witness :
    ((0 : ℚ) ≤ 0 ∧ lerp_color WHITE WHITE 0 = WHITE) ∧
    ((1 : ℚ) ≤ 1 ∧ lerp_color WHITE WHITE 1 = WHITE) :=
  ⟨⟨le_refl 0, (c9_lerp_idempotent_at_endpoints WHITE 0).1 (le_refl 0)⟩,
   ⟨le_refl 1, (c9_lerp_idempotent_at_endpoints WHITE 1).2 (le_refl 1)⟩⟩

/-- C5: a `NotificationClosed(id, reason)` event matching a pending entry
removes exactly that entry; promotion — the `flash_on_auto_close` flash (when
non-black) and, for `important` settings, the append to the displayed list
with a recomposite — happens if and only if `reason = 1`; any other reason
discards silently: no flash, no promotion, no recomposite. -/
theorem c5_closed_promotes_only_on_expiry
    (id reason : ℕ) (pending displayed : List Notification)
    (notif : Notification) (rest : List Notification)
    (hfind : findRemove (fun n => n.id == id) pending = some (notif, rest)) :
    (handleNotificationClosed id reason pending displayed).pending = rest ∧
    (reason = 1 →
      (handleNotificationClosed id reason pending displayed).flashed =
        (if notif.settings.flash_on_auto_close ≠ BLACK then
          some notif.settings.flash_on_auto_close else none) ∧
      (notif.settings.important = true →
        (handleNotificationClosed id reason pending displayed).displayed =
          displayed ++ [notif] ∧
        (handleNotificationClosed id reason pending displayed).recomposited = true) ∧
      (notif.settings.important = false →
        (handleNotificationClosed id reason pending displayed).displayed = displayed ∧
        (handleNotificationClosed id reason pending displayed).recomposited = false)) ∧
    (reason ≠ 1 →
      (handleNotificationClosed id reason pending displayed).flashed = none ∧
      (handleNotificationClosed id reason pending displayed).displayed = displayed ∧
      (handleNotificationClosed id reason pending displayed).recomposited = false) := by
  refine ⟨?_, ?_, ?_⟩
  · by_cases hr : reason ≠ 1
    · simp [handleNotificationClosed, hfind, hr]
    · by_cases himp : notif.settings.important <;>
        simp [handleNotificationClosed, hfind, hr, himp]
  · intro hr
    subst hr
    by_cases himp : notif.settings.important <;>
      by_cases hfc : notif.settings.flash_on_auto_close = BLACK <;>
        simp [handleNotificationClosed, hfind, himp, hfc]
  · intro hr
    simp [handleNotificationClosed, hfind, hr]

/-- Witness for C5 at the spec's scenario: a pending entry with id 7,
`important = true`, cyan `flash_on_auto_close`, closed with reason 1. -/
theorem c5_closed_promotes_only_on_expiry_witness :
    findRemove (fun n => n.id == 7)
      [Notification.mk 7 "m" ⟨⟨0, 255, 255⟩, true, false, ⟨0, 255, 255⟩⟩ 0] =
      some (Notification.mk 7 "m" ⟨⟨0, 255, 255⟩, true, false, ⟨0, 255, 255⟩⟩ 0, []) ∧
    (handleNotificationClosed 7 1
      [Notification.mk 7 "m" ⟨⟨0, 255, 255⟩, true, false, ⟨0, 255, 255⟩⟩ 0] []).pending = [] ∧
    (handleNotificationClosed 7 1
      [Notification.mk 7 "m" ⟨⟨0, 255, 255⟩, true, false, ⟨0, 255, 255⟩⟩ 0] []).flashed =
      some ⟨0, 255, 255⟩ ∧
    (handleNotificationClosed 7 1
      [Notification.mk 7 "m" ⟨⟨0, 255, 255⟩, true, false, ⟨0, 255, 255⟩⟩ 0] []).displayed =
      [Notification.mk 7 "m" ⟨⟨0, 255, 255⟩, true, false, ⟨0, 255, 255⟩⟩ 0] ∧
    (handleNotificationClosed 7 1
      [Notification.mk 7 "m" ⟨⟨0, 255, 255⟩, true, false, ⟨0, 255, 255⟩⟩ 0] []).recomposited =
      true := by
  have T := c5_closed_promotes_only_on_expiry 7 1
      [Notification.mk 7 "m" ⟨⟨0, 255, 255⟩, true, false, ⟨0, 255, 255⟩⟩ 0] []
      (Notification.mk 7 "m" ⟨⟨0, 255, 255⟩, true, false, ⟨0, 255, 255⟩⟩ 0) []
      (by decide)
  exact ⟨by decide, T.1, ((T.2.1 rfl).1).trans (by decide),
    ((T.2.1 rfl).2.1 rfl).1, ((T.2.1 rfl).2.1 rfl).2⟩

/-- C2: the claim says every pending notification older than the 2000 ms
delivery timeout is purged by the delivery-reply handler. The source computes
`deadline_time = get_timestamp() + notification_delivery_timeout` and keeps
entries with `timestamp <= deadline_time`, a condition every entry created in
the past satisfies — so nothing is ever purged: a 10-second-old entry
survives a delivery reply untouched (and being unmatched it is neither
assigned an id nor flashed). -/
theorem c2_stale_pending_retained :
    handleDelivery 5 "unrelated" 10000
      [Notification.mk 0 "mail" ⟨GREEN, true, true, BLUE⟩ 0] =
      ([Notification.mk 0 "mail" ⟨GREEN, true, true, BLUE⟩ 0], none) := by
  decide

/-- C10: a progress update with `progress == 0.0` triggers a flash whose color
is chosen from `progress-visible` and `count` (green / red / blue / purple),
never a bare recomposite; and a bare recomposite happens exactly when the
progress is nonzero and its delta from the stored ratio exceeds
`PROGRESS_STEP`. -/
theorem c10_progress_zero_flashes (pm : List (String × Color × ℚ)) (ev : ProgressEvent) :
    (ev.progress = 0 →
      (handleProgressUpdate pm ev).2 =
        ProgressAction.flash
          (if ev.progress_visible then (if 1 < ev.count then GREEN else RED)
           else if 1 < ev.count then BLUE else PURPLE)) ∧
    ((handleProgressUpdate pm ev).2 = ProgressAction.recomposite ↔
      (ev.progress ≠ 0 ∧ PROGRESS_STEP < progress_delta pm ev)) := by
  constructor
  · intro h
    simp [handleProgressUpdate, h]
  · by_cases h0 : ev.progress = 0
    · simp [handleProgressUpdate, h0]
    · by_cases hd : PROGRESS_STEP < progress_delta pm ev <;>
        simp [handleProgressUpdate, h0, hd]

/-- Witness for C10: an invisible zero-progress event with count 0 (a finished
download) on an empty ledger flashes purple. -/
theorem c10_progress_zero_flashes_witness :
    (ProgressEvent.mk "dl" 0 false 0).progress = 0 ∧
    (handleProgressUpdate [] (ProgressEvent.mk "dl" 0 false 0)).2 =
      ProgressAction.flash PURPLE := by
  refine ⟨rfl, ?_⟩
  have h := (c10_progress_zero_flashes [] (ProgressEvent.mk "dl" 0 false 0)).1 rfl
  rw [h]
  decide

/-- Pointwise interpolation of two equal-length frames at parameter 1 yields
the target frame. -/
theorem zip_lerp_one (a b : List Color) (h : a.length = b.length) :
    (a.zip b).map (fun p => lerp_color p.1 p.2 1) = b := by
  induction a generalizing b with
  | nil =>
    cases b with
    | nil => rfl
    | cons y ys => simp at h
  | cons x xs ih =>
    cases b with
    | nil => simp at h
    | cons y ys =>
      simp only [List.zip_cons_cons, List.map_cons]
      rw [lerp_color_of_one_le _ _ (le_refl 1), ih ys (by simpa using h)]

/-- C1: after `fade_into_frame(target, d)` with `d` at least one tick
interval, the engine's "last frame" state equals `target` exactly, provided
the last-frame snapshot and the target have the same length. The final
iteration uses `t = iterations as f64 / iterations as f64`, which is exactly
1.0, and `lerp_color` at 1 is exact. -/
theorem c1_fade_reaches_target (st : EngineState) (target : Frame) (d : ℕ)
    (hd : FRAME_DURATION_MS ≤ d) (hlen : st.lastFrame.length = target.length) :
    (fade_into_frame st target d).lastFrame = target := by
  unfold fade_into_frame
  have hn : 1 ≤ d / FRAME_DURATION_MS :=
    (Nat.one_le_div_iff (by norm_num [FRAME_DURATION_MS])).mpr hd
  obtain ⟨m, hm⟩ : ∃ m, d / FRAME_DURATION_MS = m + 1 :=
    ⟨d / FRAME_DURATION_MS - 1, by omega⟩
  simp only [hm]
  rw [List.range_succ, List.foldl_append, List.foldl_cons, List.foldl_nil]
  show (st.lastFrame.zip target).map
      (fun p => lerp_color p.1 p.2
        (fdiv (((m + 1 : ℕ)) : ℚ) (((m + 1 : ℕ)) : ℚ))) = target
  have ht : fdiv (((m + 1 : ℕ)) : ℚ) (((m + 1 : ℕ)) : ℚ) = 1 := by
    unfold fdiv
    rw [div_self (by positivity), floatRound_one]
  rw [ht]
  exact zip_lerp_one st.lastFrame target hlen

/-- Witness for C1: fading a one-LED black frame into white over exactly one
tick lands the last-frame state on the target. -/
theorem c1_fade_reaches_target_witness :
    FRAME_DURATION_MS ≤ 75 ∧
    (EngineState.mk [BLACK] []).lastFrame.length = ([WHITE] : Frame).length ∧
    (fade_into_frame (EngineState.mk [BLACK] []) [WHITE] 75).lastFrame = [WHITE] :=
  ⟨by decide, by decide,
   c1_fade_reaches_target (EngineState.mk [BLACK] []) [WHITE] 75 (by decide) (by decide)⟩

/-- C7: whenever the flash atomic is non-black when `composite` runs (with
in-range progress ratios so the loop completes), the frame handed to the
Animator is the base frame everywhere except the indicator run of
`TOP_ROW_LENGTH` positions from `COL_OFFSET_START`, which all carry the flash
color — progress entries and notification markers are not rendered — and the
progress-ledger contents come back unchanged. -/
theorem c7_flash_overrides_indicator_row
    (entries : List (Color × ℚ)) (notifs : List Notification) (flash : Color) (base : Frame)
    (hflash : flash ≠ BLACK) (hlen : base.length = TOTAL_LEDS)
    (hr : ∀ e ∈ entries, e.2 ≤ 1) (hcount : entries.length ≤ 2 ^ 40) :
    (composite_with_ledger entries notifs flash base).map Prod.snd = some entries ∧
    (composite_with_ledger entries notifs flash base).map (fun p => p.1.length) =
      some TOTAL_LEDS ∧
    ∀ j : ℕ, (composite_with_ledger entries notifs flash base).bind (fun p => p.1[j]?) =
      if COL_OFFSET_START ≤ j ∧ j < COL_OFFSET_START + TOP_ROW_LENGTH
      then some flash else base[j]? := by
  have hfold := progressLoop_full base hlen entries hr hcount
  have hrun : COL_OFFSET_START + TOP_ROW_LENGTH ≤ base.length := by
    rw [hlen]
    decide
  obtain ⟨g, hg, hglen, hgp⟩ := setRun_eq TOP_ROW_LENGTH flash hrun
  have hcomp : composite entries notifs flash base = some g := by
    unfold composite
    rw [hfold]
    show (if flash ≠ BLACK then setRun base COL_OFFSET_START TOP_ROW_LENGTH flash
        else (averageRun base (barStateOf base entries)).bind
          (fun nf => writeNotifs nf (COL_OFFSET_START + 2) notifs)) = some g
    rw [if_pos hflash]
    exact hg
  refine ⟨?_, ?_, ?_⟩
  · simp [composite_with_ledger, hcomp]
  · simp [composite_with_ledger, hcomp, hglen, hlen]
  · intro j
    simp only [composite_with_ledger, hcomp, Option.map_some']
    show g[j]? = _
    exact hgp j

/-- Witness for C7: red flash on the all-black base with empty ledgers; the
second indicator position shows the flash, position 0 stays base black. -/
theorem c7_flash_overrides_indicator_row_witness :
    RED ≠ BLACK ∧ (BLACK_SUBSTRATE : Frame).length = TOTAL_LEDS ∧
    (composite_with_ledger [] [] RED BLACK_SUBSTRATE).map Prod.snd = some [] ∧
    (composite_with_ledger [] [] RED BLACK_SUBSTRATE).bind (fun p => p.1[1]?) =
      some RED ∧
    (composite_with_ledger [] [] RED BLACK_SUBSTRATE).bind (fun p => p.1[0]?) =
      some BLACK := by
  have T := c7_flash_overrides_indicator_row [] [] RED BLACK_SUBSTRATE
    (by decide) (by simp [BLACK_SUBSTRATE]) (by simp) (by simp)
  refine ⟨by decide, by simp [BLACK_SUBSTRATE], T.1, ?_, ?_⟩
  · rw [T.2.2 1, if_pos (by decide)]
  · rw [T.2.2 0, if_neg (by decide)]
    simp [BLACK_SUBSTRATE, List.getElem?_replicate]
    decide

/-- C8 (counterexample): with 130 displayed notifications the marker loop
runs past the end of the 132-LED frame and `composite` panics (index out of
bounds) instead of silently truncating: the claim "composite never panics or
writes out of the frame's bounds regardless of the displayed-list length" is
false. -/
theorem c8_marker_overflow_panics :
    composite [] (List.replicate 130 (Notification.mk 0 "" ⟨RED, false, false, BLACK⟩ 0))
      BLACK BLACK_SUBSTRATE = none := by
  have hlenN : (List.replicate 130
      (Notification.mk 0 "" ⟨RED, false, false, BLACK⟩ 0)).length = 130 := by simp
  generalize hns : List.replicate 130 (Notification.mk 0 "" ⟨RED, false, false, BLACK⟩ 0) = ns
  rw [hns] at hlenN
  have hlen : (BLACK_SUBSTRATE : Frame).length = TOTAL_LEDS := by simp [BLACK_SUBSTRATE]
  have hfold := progressLoop_full BLACK_SUBSTRATE hlen [] (by simp) (by simp)
  have hbar1 : (barStateOf BLACK_SUBSTRATE []).coloredLeds ≤
      (barStateOf BLACK_SUBSTRATE []).topBar.length := by
    rw [barStateOf_nil]
    simp
  have hbound : COL_OFFSET_START +
      (barStateOf BLACK_SUBSTRATE []).coloredLeds ≤ (BLACK_SUBSTRATE : Frame).length := by
    rw [barStateOf_nil, hlen]
    decide
  obtain ⟨g1, hg1, hg1len, _⟩ := averageRun_eq hbar1 hbound
  have hcomp : composite [] ns BLACK BLACK_SUBSTRATE =
      writeNotifs g1 (COL_OFFSET_START + 2) ns := by
    unfold composite
    rw [hfold]
    show (if BLACK ≠ BLACK then
        setRun BLACK_SUBSTRATE COL_OFFSET_START TOP_ROW_LENGTH BLACK
      else (averageRun BLACK_SUBSTRATE (barStateOf BLACK_SUBSTRATE [])).bind
        (fun nf => writeNotifs nf (COL_OFFSET_START + 2) ns)) = _
    rw [if_neg (by simp), hg1]
    rfl
  rw [hcomp]
  apply writeNotifs_none
  · exact List.ne_nil_of_length_pos (by omega)
  · rw [hg1len, hlen, hlenN]
    decide

/-- C8 (amended): `composite` with no active flash writes one LED per
displayed notification in list order starting at `COL_OFFSET_START + 2`,
with no truncation and no bound check: every marker lands in bounds exactly
when the list has at most `TOTAL_LEDS - (COL_OFFSET_START + 2) = 129`
entries; with more, the loop writes past the end of the frame and composite
panics (modelled as `none`). -/
theorem c8_markers_written_without_truncation
    (entries : List (Color × ℚ)) (notifs : List Notification) (base : Frame)
    (hlen : base.length = TOTAL_LEDS) (hr : ∀ e ∈ entries, e.2 ≤ 1)
    (hcount : entries.length ≤ 2 ^ 40) :
    (notifs.length ≤ TOTAL_LEDS - (COL_OFFSET_START + 2) →
      (composite entries notifs BLACK base).isSome = true ∧
      ∀ j, j < notifs.length →
        (composite entries notifs BLACK base).bind
          (fun fr => fr[COL_OFFSET_START + 2 + j]?) =
          (notifs[j]?).map (fun n => n.settings.color)) ∧
    (TOTAL_LEDS - (COL_OFFSET_START + 2) < notifs.length →
      composite entries notifs BLACK base = none) := by
  have h132 : TOTAL_LEDS = 132 := rfl
  have hrow : ROW_LENGTH = 22 := rfl
  have hcol : COL_OFFSET_START = 1 := rfl
  have hfold := progressLoop_full base hlen entries hr hcount
  have hcol18 : coloredOf entries ≤ 18 := coloredOf_le_18 hr
  have hbarst : (barStateOf base entries).coloredLeds = coloredOf entries := rfl
  have hbarlen : (barStateOf base entries).topBar.length = ROW_LENGTH := by
    simp [barStateOf]
  have hbar1 : (barStateOf base entries).coloredLeds ≤
      (barStateOf base entries).topBar.length := by
    rw [hbarst, hbarlen]
    omega
  have hbound : COL_OFFSET_START + (barStateOf base entries).coloredLeds ≤ base.length := by
    rw [hbarst, hlen]
    omega
  obtain ⟨g1, hg1, hg1len, hg1p⟩ := averageRun_eq hbar1 hbound
  have hcomp : composite entries notifs BLACK base =
      writeNotifs g1 (COL_OFFSET_START + 2) notifs := by
    unfold composite
    rw [hfold]
    show (if BLACK ≠ BLACK then setRun base COL_OFFSET_START TOP_ROW_LENGTH BLACK
        else (averageRun base (barStateOf base entries)).bind
          (fun nf => writeNotifs nf (COL_OFFSET_START + 2) notifs)) = _
    rw [if_neg (by simp), hg1]
    rfl
  constructor
  · intro hfit
    have hwb : COL_OFFSET_START + 2 + notifs.length ≤ g1.length := by
      rw [hg1len, hlen]
      omega
    obtain ⟨g2, hg2, _, _, hin⟩ := writeNotifs_eq g1 (COL_OFFSET_START + 2) hwb
    constructor
    · rw [hcomp, hg2]
      rfl
    · intro j hj
      rw [hcomp, hg2]
      show g2[COL_OFFSET_START + 2 + j]? = _
      exact hin j hj
  · intro hover
    rw [hcomp]
    apply writeNotifs_none
    · have hpos : 0 < notifs.length := by omega
      exact List.ne_nil_of_length_pos hpos
    · rw [hg1len, hlen]
      omega

/-- Witness for C8's amended theorem: one displayed notification on the black
base gets its marker at position 3, and the success half applies. -/
theorem c8_markers_written_without_truncation_witness :
    (BLACK_SUBSTRATE : Frame).length = TOTAL_LEDS ∧
    ([Notification.mk 0 "" ⟨RED, false, false, BLACK⟩ 0].length ≤
      TOTAL_LEDS - (COL_OFFSET_START + 2)) ∧
    (composite [] [Notification.mk 0 "" ⟨RED, false, false, BLACK⟩ 0] BLACK
      BLACK_SUBSTRATE).isSome = true ∧
    (composite [] [Notification.mk 0 "" ⟨RED, false, false, BLACK⟩ 0] BLACK
      BLACK_SUBSTRATE).bind (fun fr => fr[COL_OFFSET_START + 2 + 0]?) = some RED := by
  have T := c8_markers_written_without_truncation []
    [Notification.mk 0 "" ⟨RED, false, false, BLACK⟩ 0] BLACK_SUBSTRATE
    (by simp [BLACK_SUBSTRATE]) (by simp) (by simp)
  have hfit : ([Notification.mk 0 "" ⟨RED, false, false, BLACK⟩ 0].length ≤
      TOTAL_LEDS - (COL_OFFSET_START + 2)) := by decide
  refine ⟨by simp [BLACK_SUBSTRATE], hfit, (T.1 hfit).1, ?_⟩
  rw [(T.1 hfit).2 0 (by decide)]
  decide

/-- Entry scaled progress at ratio one-half: `0.5 * 17.0` is exact in `f64`. -/
theorem entryScaled_half (c : Color) :
    entryScaled (c, (1 / 2 : ℚ)) = ((17 : ℕ) : ℚ) / 2 ^ 1 := by
  unfold entryScaled fmul
  have h : (c, (1 / 2 : ℚ)).2 * ((TOP_ROW_LENGTH : ℕ) : ℚ) = ((17 : ℕ) : ℚ) / 2 ^ 1 := by
    show (1 / 2 : ℚ) * ((TOP_ROW_LENGTH : ℕ) : ℚ) = _
    norm_num [TOP_ROW_LENGTH, ROW_LENGTH, COL_OFFSET_END, COL_OFFSET_START]
  rw [h]
  exact floatRound_dyadic 17 1 (by norm_num) (by norm_num)

/-- An entry at ratio one-half fully fills buckets `0..7`: `filled_leds = 8`. -/
theorem entryFilled_half (c : Color) : entryFilled (c, (1 / 2 : ℚ)) = 8 := by
  unfold entryFilled
  rw [entryScaled_half]
  unfold f64AsUsize
  have hfl : ⌊((17 : ℕ) : ℚ) / 2 ^ 1⌋ = 8 := by
    apply Int.floor_eq_iff.mpr
    constructor
    · push_cast
      norm_num
    · push_cast
      norm_num
  rw [hfl]
  decide

/-- C6: with no active flash, (i) two progress entries both at ratio `0.5`,
one pure red and one pure blue, give every jointly fully-filled indicator LED
(buckets `0..7`, frame positions `1..8`) the channel-wise mean
`(127, 0, 127)` of the two colors — not a spatial split; (ii) in general a
bucket fully filled by every contributing entry displays the channel-wise
mean (computed in `f64`, truncated by `as u8`) of the contributing entries'
colors; (iii) that displayed color is independent of the iteration order of
the progress map; (iv) an entry with ratio `≤ 0` contributes nothing at all
to the composite. -/
theorem c6_fully_filled_mean (base : Frame) (hlen : base.length = TOTAL_LEDS) :
    (∀ i, i < 8 →
      (composite [(RED, (1 / 2 : ℚ)), (BLUE, (1 / 2 : ℚ))] [] BLACK base).bind
        (fun fr => fr[i + COL_OFFSET_START]?) = some ⟨127, 0, 127⟩) ∧
    (∀ (l : List (Color × ℚ)) (i : ℕ), (∀ e ∈ l, e.2 ≤ 1) → l.length ≤ 2 ^ 40 →
      goodEntries l ≠ [] → (∀ e ∈ goodEntries l, i < entryFilled e) →
      (composite l [] BLACK base).bind (fun fr => fr[i + COL_OFFSET_START]?) =
        some (Color.mk
          (f64AsU8 (fdiv ((((goodEntries l).map (fun e => e.1.r.val)).sum : ℕ) : ℚ)
            ((((goodEntries l).length : ℕ)) : ℚ)))
          (f64AsU8 (fdiv ((((goodEntries l).map (fun e => e.1.g.val)).sum : ℕ) : ℚ)
            ((((goodEntries l).length : ℕ)) : ℚ)))
          (f64AsU8 (fdiv ((((goodEntries l).map (fun e => e.1.b.val)).sum : ℕ) : ℚ)
            ((((goodEntries l).length : ℕ)) : ℚ))))) ∧
    (∀ (l l' : List (Color × ℚ)) (i : ℕ), l.Perm l' → (∀ e ∈ l, e.2 ≤ 1) →
      l.length ≤ 2 ^ 40 → goodEntries l ≠ [] →
      (∀ e ∈ goodEntries l, i < entryFilled e) →
      (composite l [] BLACK base).bind (fun fr => fr[i + COL_OFFSET_START]?) =
        (composite l' [] BLACK base).bind (fun fr => fr[i + COL_OFFSET_START]?)) ∧
    (∀ (e : Color × ℚ) (l : List (Color × ℚ)) (ns : List Notification) (fl : Color),
      e.2 ≤ 0 → composite (e :: l) ns fl base = composite l ns fl base) := by
  have hge : goodEntries [(RED, (1 / 2 : ℚ)), (BLUE, (1 / 2 : ℚ))] =
      [(RED, (1 / 2 : ℚ)), (BLUE, (1 / 2 : ℚ))] := by
    unfold goodEntries
    rw [List.filter_cons,
      if_pos (by show decide ((0 : ℚ) < 1 / 2) = true; rw [decide_eq_true_eq]; norm_num),
      List.filter_cons,
      if_pos (by show decide ((0 : ℚ) < 1 / 2) = true; rw [decide_eq_true_eq]; norm_num)]
    rfl
  refine ⟨?_, ?_, ?_, ?_⟩
  · intro i hi
    have hr2 : ∀ e ∈ [(RED, (1 / 2 : ℚ)), (BLUE, (1 / 2 : ℚ))], e.2 ≤ 1 := by
      intro e he
      rcases List.mem_cons.mp he with h | h
      · rw [h]
        norm_num
      · rcases List.mem_cons.mp h with h' | h'
        · rw [h']
          norm_num
        · exact absurd h' (List.not_mem_nil e)
    have hful : ∀ e ∈ goodEntries [(RED, (1 / 2 : ℚ)), (BLUE, (1 / 2 : ℚ))],
        i < entryFilled e := by
      rw [hge]
      intro e he
      rcases List.mem_cons.mp he with h | h
      · rw [h, entryFilled_half]
        omega
      · rcases List.mem_cons.mp h with h' | h'
        · rw [h', entryFilled_half]
          omega
        · exact absurd h' (List.not_mem_nil e)
    have hC := composite_fully_filled [(RED, (1 / 2 : ℚ)), (BLUE, (1 / 2 : ℚ))] base i
      hlen hr2 (by simp) (by rw [hge]; simp) hful
    rw [hC, hge]
    show some (Color.mk
        (f64AsU8 (fdiv ((255 : ℕ) : ℚ) ((2 : ℕ) : ℚ)))
        (f64AsU8 (fdiv ((0 : ℕ) : ℚ) ((2 : ℕ) : ℚ)))
        (f64AsU8 (fdiv ((255 : ℕ) : ℚ) ((2 : ℕ) : ℚ)))) = _
    have h255 : fdiv ((255 : ℕ) : ℚ) ((2 : ℕ) : ℚ) = ((255 : ℕ) : ℚ) / 2 ^ 1 := by
      unfold fdiv
      rw [show ((255 : ℕ) : ℚ) / ((2 : ℕ) : ℚ) = ((255 : ℕ) : ℚ) / 2 ^ 1 by norm_num]
      exact floatRound_dyadic 255 1 (by norm_num) (by norm_num)
    have h0 : fdiv ((0 : ℕ) : ℚ) ((2 : ℕ) : ℚ) = 0 := by
      unfold fdiv
      rw [show ((0 : ℕ) : ℚ) / ((2 : ℕ) : ℚ) = (0 : ℚ) by norm_num]
      exact floatRound_zero
    have hfl : ⌊((255 : ℕ) : ℚ) / 2 ^ 1⌋ = 127 := by
      apply Int.floor_eq_iff.mpr
      constructor
      · push_cast
        norm_num
      · push_cast
        norm_num
    have hA : f64AsU8 (((255 : ℕ) : ℚ) / 2 ^ 1) = (127 : Fin 256) := by
      unfold f64AsU8
      apply Fin.ext
      show min ⌊((255 : ℕ) : ℚ) / 2 ^ 1⌋.toNat 255 = _
      rw [hfl]
      decide
    have hB : f64AsU8 (0 : ℚ) = (0 : Fin 256) := by
      unfold f64AsU8
      apply Fin.ext
      show min ⌊(0 : ℚ)⌋.toNat 255 = _
      rw [Int.floor_zero]
      decide
    rw [h255, h0, hA, hB]
  · intro l i hr hcount hgood hful
    exact composite_fully_filled l base i hlen hr hcount hgood hful
  · intro l l' i hperm hr hcount hgood hful
    have hr' : ∀ e ∈ l', e.2 ≤ 1 := fun e he => hr e (hperm.mem_iff.mpr he)
    have hcount' : l'.length ≤ 2 ^ 40 := by
      rw [← hperm.length_eq]
      exact hcount
    have hgp : (goodEntries l).Perm (goodEntries l') := by
      unfold goodEntries
      exact hperm.filter _
    have hgood' : goodEntries l' ≠ [] := by
      intro h
      rw [h] at hgp
      exact hgood hgp.eq_nil
    have hful' : ∀ e ∈ goodEntries l', i < entryFilled e :=
      fun e he => hful e (hgp.mem_iff.mpr he)
    rw [composite_fully_filled l base i hlen hr hcount hgood hful,
      composite_fully_filled l' base i hlen hr' hcount' hgood' hful']
    have hmap : ∀ (f : Color × ℚ → ℕ),
        ((goodEntries l).map f).sum = ((goodEntries l').map f).sum :=
      fun f => (hgp.map f).sum_eq
    rw [hmap (fun e => e.1.r.val), hmap (fun e => e.1.g.val),
      hmap (fun e => e.1.b.val), hgp.length_eq]
  · intro e l ns fl h0
    have hskip : ∀ st, processEntry base st e = some st := by
      intro st
      unfold processEntry
      rw [if_pos h0]
    unfold composite
    rw [List.foldlM_cons, hskip]
    rfl

/-- Witness for C6: on the all-black substrate, position 1 of the red/blue
half-progress composite is the mean `(127, 0, 127)`, and a ratio-0 green
entry leaves the composite unchanged. -/
theorem c6_fully_filled_mean_witness :
    (BLACK_SUBSTRATE : Frame).length = TOTAL_LEDS ∧ (0 : ℕ) < 8 ∧
    (composite [(RED, (1 / 2 : ℚ)), (BLUE, (1 / 2 : ℚ))] [] BLACK
      BLACK_SUBSTRATE).bind (fun fr => fr[0 + COL_OFFSET_START]?) =
      some ⟨127, 0, 127⟩ ∧
    ((GREEN, (0 : ℚ)) : Color × ℚ).2 ≤ 0 ∧
    composite [(GREEN, (0 : ℚ))] [] BLACK BLACK_SUBSTRATE =
      composite [] [] BLACK BLACK_SUBSTRATE := by
  have T := c6_fully_filled_mean BLACK_SUBSTRATE (by simp [BLACK_SUBSTRATE])
  exact ⟨by simp [BLACK_SUBSTRATE], by norm_num, T.1 0 (by norm_num),
    le_refl _, T.2.2.2 (GREEN, (0 : ℚ)) [] [] BLACK (le_refl _)⟩
